import Mathlib

/-!
Verification of the trip-record analytics utility
(`analyzer.cpp`, `khanapi.kazavatov.cpp`, and the two unnamed drift
variants, called V1 and V2 below).

Lines of input are modelled as `List Char`; the ingestion loop is a fold
of a per-line state transformer; the two tallies (`unordered_map`s in the
source) are modelled as association lists, whose iteration order is the
list order — claims about iteration-order independence are stated by
quantifying over permutations of the association list.  Counts are
`long long` in the source and are only ever incremented starting from 0,
so they are modelled as `Nat`.
-/

abbrev Str := List Char

/-- C `isspace` in the C locale (the bytes the source's `trimInPlace` strips). -/
def isSpaceC (c : Char) : Bool :=
  c = ' ' || c = '\t' || c = '\n' || c = '\x0b' || c = '\x0c' || c = '\r'

/-- C `isdigit`. -/
def isDigitC (c : Char) : Bool := '0' ≤ c && c ≤ '9'

/-- Numeric value of a digit character (`c - '0'` in the source). -/
def dval (c : Char) : Nat := c.toNat - '0'.toNat

/-- C `toupper` in the C locale, restricted to ASCII (identity elsewhere),
matching `toUpperInPlace` in `analyzer.cpp`. -/
def toUpperC (c : Char) : Char :=
  if 'a' ≤ c && c ≤ 'z' then Char.ofNat (c.toNat - 32) else c

/-- `toUpperInPlace` (analyzer.cpp:33-35). -/
def toUpperL (s : Str) : Str := s.map toUpperC

/-- `trimInPlace` (analyzer.cpp:24-31): drop leading and trailing blanks. -/
def trimL (s : Str) : Str :=
  ((s.dropWhile isSpaceC).reverse.dropWhile isSpaceC).reverse

/-- `stripCR` (analyzer.cpp:20-22): drop one trailing carriage return. -/
def stripCR (s : Str) : Str :=
  if s.getLast? = some '\r' then s.dropLast else s

/-- Split a line at every comma; `n` commas yield `n+1` pieces.
This is the reference notion of "the fields of a line" used to state the
claims; the various source functions are related to it by lemmas below. -/
def splitAll : Str → List Str
  | [] => [[]]
  | c :: cs =>
    if c = ',' then [] :: splitAll cs
    else
      match splitAll cs with
      | [] => [[c]]
      | f :: rest => (c :: f) :: rest

/-- Index of the first occurrence of a character (`std::string::find`). -/
def findIdxC (ch : Char) : Str → Option Nat
  | [] => none
  | c :: cs => if c = ch then some 0 else (findIdxC ch cs).map (· + 1)

/-- `std::string::find(ch, pos)`: first occurrence at index `≥ pos`,
as an absolute index. -/
def findFrom (line : Str) (ch : Char) (pos : Nat) : Option Nat :=
  (findIdxC ch (line.drop pos)).map (pos + ·)

/-- Lookup in an association list with a default (reading side of
`unordered_map::operator[]` / `find`). -/
def lookupD {κ β : Type} [DecidableEq κ] (m : List (κ × β)) (k : κ) (d : β) : β :=
  match m with
  | [] => d
  | (k', v) :: rest => if k' = k then v else lookupD rest k d

/-- `m[k]++` on a count map: increment, creating the entry with value 1. -/
def bump {κ : Type} [DecidableEq κ] (m : List (κ × Nat)) (k : κ) : List (κ × Nat) :=
  match m with
  | [] => [(k, 1)]
  | (k', v) :: rest => if k' = k then (k', v + 1) :: rest else (k', v) :: bump rest k

/-- Value of a digit string, most significant digit first (`std::stoi` on an
all-digit string short enough not to overflow). -/
def digitsVal (s : Str) : Nat := s.foldl (fun a c => 10 * a + dval c) 0

/-- Whether `pat` occurs as a contiguous block of `s`
(`std::string::find(pat) != npos`). -/
def startsWithL : Str → Str → Bool
  | [], _ => true
  | _ :: _, [] => false
  | a :: as, b :: bs => a = b && startsWithL as bs

def containsSub (pat : Str) : Str → Bool
  | [] => startsWithL pat []
  | c :: cs => startsWithL pat (c :: cs) || containsSub pat cs

/-- Lexicographic order on strings by character code
(`std::string::operator<`, as a ≤-relation). -/
def lexLE : Str → Str → Bool
  | [], _ => true
  | _ :: _, [] => false
  | a :: as, b :: bs => if a = b then lexLE as bs else decide (a < b)

/-- `struct ZoneCount` (analyzer.h / khanapi.kazavatov.cpp:5-11). -/
structure ZoneCount where
  zone : Str
  count : Nat
deriving DecidableEq, Repr

/-- `struct SlotCount` (analyzer.h / khanapi.kazavatov.cpp:13-21). -/
structure SlotCount where
  zone : Str
  hour : Nat
  count : Nat
deriving DecidableEq, Repr

/-- The ranking order on zone totals induced by the comparator of
`TripAnalyzer::topZones` (analyzer.cpp:172-175): count descending,
ties by zone ascending.  `zcLE a b` means `a` sorts no later than `b`,
i.e. `¬ cmp b a` for the strict comparator of the source. -/
def zcLE (a b : ZoneCount) : Bool :=
  if a.count = b.count then lexLE a.zone b.zone else decide (b.count < a.count)

/-- The ranking order induced by the comparator of
`TripAnalyzer::topBusySlots` (analyzer.cpp:206-210): count descending,
ties by zone ascending, then hour ascending. -/
def scLE (a b : SlotCount) : Bool :=
  if a.count = b.count then
    if a.zone = b.zone then decide (a.hour ≤ b.hour) else lexLE a.zone b.zone
  else decide (b.count < a.count)

def zcR (a b : ZoneCount) : Prop := zcLE a b = true

def scR (a b : SlotCount) : Prop := scLE a b = true

instance : DecidableRel zcR := fun a b => instDecidableEqBool (zcLE a b) true

instance : DecidableRel scR := fun a b => instDecidableEqBool (scLE a b) true

/-- Modelled from the spec (§4.3 Ranker): the candidate that must come
first under the ranking order, found by one linear scan. -/
def findMinBy {α : Type} (r : α → α → Prop) [DecidableRel r] : α → List α → α
  | a, [] => a
  | a, b :: bs => findMinBy r (if r a b then a else b) bs

/-- Modelled from the spec (§4.3 Ranker): the partial-selection strategy —
only the top `k` are ordered (extracted one at a time); the remainder is
discarded without ever being sorted. -/
def partialSelectTopK {α : Type} [DecidableEq α] (r : α → α → Prop)
    [DecidableRel r] : Nat → List α → List α
  | 0, _ => []
  | _ + 1, [] => []
  | k + 1, a :: as =>
    let m := findMinBy r a as
    m :: partialSelectTopK r k ((a :: as).erase m)

/-! ## The main implementation, `analyzer.cpp` -/

namespace Analyzer

/-- `isHeaderLine` (analyzer.cpp:38-48): trim the line, take the first
token up to a comma, trim and upper-case it, compare with `"TRIPID"`. -/
def isHeaderLine (line0 : Str) : Bool :=
  let line := trimL line0
  if line = [] then false
  else
    let first :=
      match findIdxC ',' line with
      | none => line
      | some c => line.take c
    decide (toUpperL (trimL first) = "TRIPID".toList)

/-- `parseHourFromDatetime` (analyzer.cpp:53-71): find the first `':'` and
read the two digits immediately before it; the value must be in `[0,23]`.
(The source checks `h < 0 || h > 23`; with `Nat` only `h ≤ 23` remains.) -/
def parseHourFromDatetime (dt0 : Str) : Option Nat :=
  let dt := trimL dt0
  if dt.length < 4 then none
  else
    match findIdxC ':' dt with
    | none => none
    | some colon =>
      if colon < 2 then none
      else
        let h1 := dt.getD (colon - 2) ' '
        let h2 := dt.getD (colon - 1) ' '
        if isDigitC h1 && isDigitC h2 then
          let h := dval h1 * 10 + dval h2
          if h ≤ 23 then some h else none
        else none

/-- `readField` (analyzer.cpp:76-88): next field `[pos..comma)`, advancing
`pos` past the comma; with `allowEnd` the last field runs to the end. -/
def readField (line : Str) (pos : Nat) (allowEnd : Bool) : Option (Str × Nat) :=
  if line.length < pos then none
  else
    match findFrom line ',' pos with
    | none =>
      if allowEnd then some (line.drop pos, line.length + 1) else none
    | some comma => some ((line.drop pos).take (comma - pos), comma + 1)

/-- The aggregate state of one `TripAnalyzer` instance: the entry of `this`
in `g_zoneTrips` and `g_zoneHourTrips` (analyzer.cpp:15-16).  The per-zone
hour table is the `std::array<long long, 24>`. -/
structure AggState where
  zoneTrips : List (Str × Nat)
  zoneHour : List (Str × List Nat)
deriving DecidableEq, Repr

def zeros24 : List Nat := List.replicate 24 0

/-- The `zoneHour` update of `ingestFile` (analyzer.cpp:146-154):
create a zero array with slot `hour` set to 1, or increment slot `hour`. -/
def bumpHour (m : List (Str × List Nat)) (z : Str) (h : Nat) :
    List (Str × List Nat) :=
  match m with
  | [] => [(z, zeros24.set h 1)]
  | (k, arr) :: rest =>
    if k = z then (k, arr.set h (arr.getD h 0 + 1)) :: rest
    else (k, arr) :: bumpHour rest z h

/-- One accepted record updates both tallies (analyzer.cpp:143-154); this is
the `accept(zone, hour)` operation of the spec's Aggregator. -/
def accept (st : AggState) (zone : Str) (hour : Nat) : AggState :=
  { zoneTrips := bump st.zoneTrips zone,
    zoneHour := bumpHour st.zoneHour zone hour }

/-- The body of the `while (std::getline(...))` loop of `ingestFile`
(analyzer.cpp:108-155).  Both branches of the `firstLineChecked` test skip
header lines, so the loop body does not depend on the flag and is a pure
per-line state transformer. -/
def processLine (st : AggState) (line0 : Str) : AggState :=
  let line := stripCR line0
  if line = [] then st
  else if isHeaderLine line then st
  else
    match readField line 0 false with
    | none => st
    | some (_, pos1) =>
      match readField line pos1 false with
      | none => st
      | some (pickupZone, pos2) =>
        match readField line pos2 false with
        | none => st
        | some (_, pos3) =>
          match readField line pos3 false with
          | none => st
          | some (pickupDT, pos4) =>
            match readField line pos4 false with
            | none => st
            | some (_, pos5) =>
              match readField line pos5 true with
              | none => st
              | some _ =>
                let z := trimL pickupZone
                if z = [] then st
                else
                  let zone := toUpperL z
                  let dt := trimL pickupDT
                  match parseHourFromDatetime dt with
                  | none => st
                  | some hour => accept st zone hour

/-- `ingestFile` (analyzer.cpp:92-156) on an already-opened line stream:
clear both tallies, then fold the loop body over the lines.  (A missing
file returns the cleared, empty state — the same as folding no lines.) -/
def ingestLines (lines : List Str) : AggState :=
  lines.foldl processLine ⟨[], []⟩

def zoneCandidates (m : List (Str × Nat)) : List ZoneCount :=
  m.map fun p => ⟨p.1, p.2⟩

/-- The candidate-building loop of `topBusySlots` (analyzer.cpp:197-204):
for each zone, every hour `0 ≤ h < 24` with a positive count. -/
def slotCandidates (mh : List (Str × List Nat)) : List SlotCount :=
  mh.flatMap fun p =>
    (List.range 24).filterMap fun h =>
      if 0 < p.2.getD h 0 then some ⟨p.1, h, p.2.getD h 0⟩ else none

/-- `topZones` (analyzer.cpp:158-184).  The source uses
`std::partial_sort` + `resize` when more than `k` candidates exist and
`std::sort` otherwise; both are modelled as sorting and truncating, which
is exact because the comparator is a strict total order (no two distinct
candidates compare equal) — see the partial-selection theorem below. -/
def topZonesList (m : List (Str × Nat)) (k : Int) : List ZoneCount :=
  if k ≤ 0 then []
  else (List.insertionSort zcR (zoneCandidates m)).take k.toNat

/-- `topBusySlots` (analyzer.cpp:186-219), modelled like `topZonesList`. -/
def topBusySlotsList (mh : List (Str × List Nat)) (k : Int) : List SlotCount :=
  if k ≤ 0 then []
  else (List.insertionSort scR (slotCandidates mh)).take k.toNat

/-- The spec's Line Parser contract `parse(line) -> Some(zone, hour) | None`
(spec §4.1), extracted from the validation chain of `ingestFile`: the line
(after dropping a trailing CR) must be non-empty and not a header, split
into at least 6 comma-separated fields, with a non-empty trimmed zone at
field index 1 and a parseable hour in field index 3; the zone is trimmed
and upper-cased.  `processLine` is proved below to be exactly one
`accept` of this parse result. -/
def parseLine (l : Str) : Option (Str × Nat) :=
  let s := stripCR l
  if s = [] then none
  else if isHeaderLine s then none
  else
    let fs := splitAll s
    if fs.length < 6 then none
    else
      let z := trimL (fs.getD 1 [])
      if z = [] then none
      else
        match parseHourFromDatetime (trimL (fs.getD 3 [])) with
        | none => none
        | some h => some (toUpperL z, h)

/-- The well-formedness and counting invariant of the aggregate state:
every stored hour array has 24 slots, and every zone's total equals the
sum of its 24 per-hour slots. -/
def goodState (st : AggState) : Prop :=
  (∀ p ∈ st.zoneHour, p.2.length = 24) ∧
  ∀ z, lookupD st.zoneTrips z 0 = (lookupD st.zoneHour z zeros24).sum

end Analyzer

/-! ## The strict drift variant (first halves of `part_000`/`part_001`) -/

namespace V1

/-- `isHeaderLine` (part_000:22-24, part_001:15-18):
`line.rfind("TripID", 0) == 0`, i.e. a case-sensitive literal prefix. -/
def isHeaderLine (line : Str) : Bool := startsWithL ("TripID".toList) line

/-- `parseHour` (part_000:27-40): find a space at index `≥ start`, then two
digit characters after it, requiring them to lie before `e`. -/
def parseHour (line : Str) (start e : Nat) : Option Nat :=
  match findFrom line ' ' start with
  | none => none
  | some sp =>
    if e ≤ sp + 2 then none
    else
      let h1 := line.getD (sp + 1) ' '
      let h2 := line.getD (sp + 2) ' '
      if isDigitC h1 && isDigitC h2 then
        let h := dval h1 * 10 + dval h2
        if h ≤ 23 then some h else none
      else none

/-- The data-line part of the V1 ingest loop (part_000:72-111): exactly six
columns (five commas, no extra comma), zone = column 2 without trimming or
case folding, datetime = column 4, hour parsed space-based. -/
def dataLine (st : Analyzer.AggState) (line : Str) : Analyzer.AggState :=
  match findFrom line ',' 0 with
  | none => st
  | some c1 =>
    match findFrom line ',' (c1 + 1) with
    | none => st
    | some c2 =>
      match findFrom line ',' (c2 + 1) with
      | none => st
      | some c3 =>
        match findFrom line ',' (c3 + 1) with
        | none => st
        | some c4 =>
          match findFrom line ',' (c4 + 1) with
          | none => st
          | some c5 =>
            match findFrom line ',' (c5 + 1) with
            | some _ => st
            | none =>
              if c2 ≤ c1 + 1 then st
              else
                let zone := (line.drop (c1 + 1)).take (c2 - (c1 + 1))
                if zone = [] then st
                else if c4 ≤ c3 + 1 then st
                else
                  match parseHour line (c3 + 1) c4 with
                  | none => st
                  | some hour => Analyzer.accept st zone hour

/-- One iteration of the V1 ingest loop (part_000:63-112): the header test
runs only on the first non-empty line. -/
def step : Analyzer.AggState × Bool → Str → Analyzer.AggState × Bool
  | (st, first), line0 =>
    let line := stripCR line0
    if line = [] then (st, first)
    else if first then
      if isHeaderLine line then (st, false) else (dataLine st line, false)
    else (dataLine st line, false)

def ingestLines (lines : List Str) : Analyzer.AggState :=
  (lines.foldl step (⟨[], []⟩, true)).1

end V1

/-! ## The permissive drift variant (second half of `part_000`) -/

namespace V2

/-- The backward scan of `parseHourFromDatetime` (part_000:279-280):
`while (start > 0 && isdigit(dt[start-1])) --start`. -/
def scanStart (dt : Str) : Nat → Nat
  | 0 => 0
  | s + 1 => if isDigitC (dt.getD s ' ') then scanStart dt s else s + 1

/-- `parseHourFromDatetime` (part_000:270-309): find the first `':'`, scan
back over digits, take the 1-2 digit substring ending right before the
colon, then apply an `AM`/`PM` marker found anywhere (case-insensitively)
in the trimmed string; `PM` wins when both occur.  `colon = 0` makes the
source's `end = colon - 1` wrap around and fail the `end >= dt.size()`
test, hence the explicit guard. -/
def parseHourFromDatetime (dt0 : Str) : Option Nat :=
  let dt := trimL dt0
  if dt = [] then none
  else
    match findIdxC ':' dt with
    | none => none
    | some colon =>
      if colon = 0 then none
      else
        let e := colon - 1
        let start := scanStart dt e
        let hStr := (dt.drop start).take (e - start + 1)
        if hStr = [] || 2 < hStr.length then none
        else if !(hStr.all isDigitC) then none
        else
          let h := digitsVal hStr
          let u := toUpperL dt
          let hasAm := containsSub ("AM".toList) u
          let hasPm := containsSub ("PM".toList) u
          if hasAm || hasPm then
            if h < 1 || 12 < h then none
            else if hasPm then some (if h ≠ 12 then h + 12 else h)
            else some (if h = 12 then 0 else h)
          else if h ≤ 23 then some h else none

end V2

/-! ## The `khanapi.kazavatov.cpp` variant -/

namespace Khan

/-- The private state of `class TripAnalyzer`
(khanapi.kazavatov.cpp:27-29): `zoneCount` and the nested
`zoneHourCount`. -/
structure KState where
  zoneCount : List (Str × Nat)
  zoneHourCount : List (Str × List (Nat × Nat))
deriving DecidableEq, Repr

/-- `zoneHourCount[zone][hour]++` (khanapi.kazavatov.cpp:83). -/
def bumpNested (m : List (Str × List (Nat × Nat))) (z : Str) (h : Nat) :
    List (Str × List (Nat × Nat)) :=
  match m with
  | [] => [(z, bump [] h)]
  | (k, im) :: rest =>
    if k = z then (k, bump im h) :: rest else (k, im) :: bumpNested rest z h

/-- Column splitting via `getline(ss, cell, ',')`
(khanapi.kazavatov.cpp:65-69): like `splitAll`, except that an empty line
yields no cells and one trailing empty cell (a line ending in `','`) is
not produced, because the final `getline` hits end-of-stream first. -/
def splitKhan (l : Str) : List Str :=
  if l = [] then []
  else if l.getLast? = some ',' then (splitAll l).dropLast
  else splitAll l

/-- `std::stoi` on the two-character string `[a, b]`: skip one blank,
accept an optional sign, then read the digits; no digit at all throws
(modelled as `none`). -/
def stoi2 (a b : Char) : Option Int :=
  if isDigitC a then some (if isDigitC b then (10 * dval a + dval b : Int) else (dval a : Int))
  else if isSpaceC a then (if isDigitC b then some (dval b : Int) else none)
  else if a = '-' then (if isDigitC b then some (-(dval b : Int)) else none)
  else if a = '+' then (if isDigitC b then some (dval b : Int) else none)
  else none

/-- `parseHour` (khanapi.kazavatov.cpp:31-47): `stoi(datetime.substr(11, 2))`
guarded by `datetime.size() >= 13`, then the `[0,23]` range test. -/
def parseHour (datetime : Str) : Option Nat :=
  if datetime.length < 13 then none
  else
    match stoi2 (datetime.getD 11 ' ') (datetime.getD 12 ' ') with
    | none => none
    | some h => if 0 ≤ h ∧ h ≤ 23 then some h.toNat else none

/-- The body of the `while (getline(cin, line))` loop of `ingestStdin`
(khanapi.kazavatov.cpp:57-85): at least six columns, non-empty raw zone
and datetime (no trimming, no case folding), hour in range. -/
def khanLine (st : KState) (line : Str) : KState :=
  let cols := splitKhan line
  if cols.length < 6 then st
  else if cols.getD 1 [] = [] || cols.getD 3 [] = [] then st
  else
    match parseHour (cols.getD 3 []) with
    | none => st
    | some hour =>
      let zone := cols.getD 1 []
      { zoneCount := bump st.zoneCount zone,
        zoneHourCount := bumpNested st.zoneHourCount zone hour }

/-- `ingestStdin` (khanapi.kazavatov.cpp:51-87): the first `getline` result
is discarded unconditionally (`if (!getline(cin, line)) return;` reads a
line and never parses it); the loop then consumes the remaining lines. -/
def ingestStdin (lines : List Str) : KState :=
  match lines with
  | [] => ⟨[], []⟩
  | _ :: rest => rest.foldl khanLine ⟨[], []⟩

/-- `topZones` (khanapi.kazavatov.cpp:89-109).  There is no `k <= 0` guard:
after the full sort, `if ((int)v.size() > k) v.resize(k)` runs, and for a
negative `k` the argument of `std::vector::resize` is the conversion of
`k` to `size_t` — a value above `max_size()` — so `resize` throws
`std::length_error`.  The model returns the exception as `Except.error`. -/
def topZones (st : KState) (k : Int) : Except String (List ZoneCount) :=
  let v := List.insertionSort zcR (st.zoneCount.map fun p => ⟨p.1, p.2⟩)
  if (v.length : Int) > k then
    if k < 0 then Except.error "length_error" else Except.ok (v.take k.toNat)
  else Except.ok v

/-- `topBusySlots` (khanapi.kazavatov.cpp:111-139), with the same
unguarded `resize`. -/
def topBusySlots (st : KState) (k : Int) : Except String (List SlotCount) :=
  let v := List.insertionSort scR
    (st.zoneHourCount.flatMap fun p => p.2.map fun q => (⟨p.1, q.1, q.2⟩ : SlotCount))
  if (v.length : Int) > k then
    if k < 0 then Except.error "length_error" else Except.ok (v.take k.toNat)
  else Except.ok v

/-- The acceptance condition of the khanapi ingest loop, as a partial
zone extractor: `some zone` exactly when `khanLine` counts the line,
with the raw (untrimmed, case-preserved) zone used as the key. -/
def khanZone (line : Str) : Option Str :=
  let cols := splitKhan line
  if cols.length < 6 then none
  else if cols.getD 1 [] = [] || cols.getD 3 [] = [] then none
  else
    match parseHour (cols.getD 3 []) with
    | none => none
    | some _ => some (cols.getD 1 [])

/-- The counting invariant of the khanapi state: every zone total equals
the sum of the values of its nested hour map. -/
def goodK (st : KState) : Prop :=
  ∀ z, lookupD st.zoneCount z 0 =
    ((lookupD st.zoneHourCount z []).map Prod.snd).sum

end Khan

/-! ## Claim-side reference definitions for hour extraction (claim C1) -/

/-- The hour-extraction algorithm in the claim's own vocabulary: locate
the first colon; the run of digit characters immediately preceding it
must have length 1 or 2 and is the hour; an optional case-insensitive
`AM`/`PM` marker (found anywhere in the trimmed field, `PM` taking
precedence if both occur) is applied: 12 AM ↦ 0, 1-11 PM ↦ +12,
12 PM ↦ 12, and with no marker the value itself must be in `[0,23]`. -/
def hourExtractClaim (dt0 : Str) : Option Nat :=
  let t := trimL dt0
  match findIdxC ':' t with
  | none => none
  | some colon =>
    let run := ((t.take colon).reverse.takeWhile isDigitC).reverse
    if 1 ≤ run.length ∧ run.length ≤ 2 then
      let h := digitsVal run
      let u := toUpperL t
      if containsSub ("PM".toList) u then
        if 1 ≤ h ∧ h ≤ 12 then some (if h = 12 then 12 else h + 12) else none
      else if containsSub ("AM".toList) u then
        if 1 ≤ h ∧ h ≤ 12 then some (if h = 12 then 0 else h) else none
      else if h ≤ 23 then some h else none
    else none

/-- The `analyzer.cpp` hour rule in the claim's vocabulary: the trimmed
field must have at least 4 characters; the two characters immediately
preceding the first colon must both be digits and form a value at most
23; no AM/PM adjustment is applied. -/
def hourTwoDigitClaim (dt0 : Str) : Option Nat :=
  let t := trimL dt0
  if t.length < 4 then none
  else
    match findIdxC ':' t with
    | none => none
    | some colon =>
      let pre := t.take colon
      if pre.length < 2 then none
      else
        let two := pre.drop (pre.length - 2)
        if two.all isDigitC then
          if digitsVal two ≤ 23 then some (digitsVal two) else none
        else none

/-! ## The ranking order is a linear order -/

theorem lexLE_refl (s : Str) : lexLE s s = true := by
  induction s with
  | nil => rfl
  | cons a as ih => simpa [lexLE] using ih

theorem lexLE_total (s t : Str) : lexLE s t = true ∨ lexLE t s = true := by
  induction s generalizing t with
  | nil => exact Or.inl rfl
  | cons a as ih =>
    cases t with
    | nil => exact Or.inr rfl
    | cons b bs =>
      by_cases hab : a = b
      · subst hab
        simpa [lexLE] using ih bs
      · rcases lt_trichotomy a b with h | h | h
        · left; simp [lexLE, hab, h]
        · exact absurd h hab
        · right; simp [lexLE, Ne.symm hab, h]

theorem lexLE_trans : ∀ s t u : Str,
    lexLE s t = true → lexLE t u = true → lexLE s u = true := by
  intro s
  induction s with
  | nil => intro t u _ _; rfl
  | cons a as ih =>
    intro t u h1 h2
    cases t with
    | nil => simp [lexLE] at h1
    | cons b bs =>
      cases u with
      | nil => simp [lexLE] at h2
      | cons c cs =>
        simp only [lexLE] at h1 h2 ⊢
        by_cases hab : a = b
        · subst hab
          rw [if_pos rfl] at h1
          by_cases hac : a = c
          · subst hac
            rw [if_pos rfl] at h2 ⊢
            exact ih bs cs h1 h2
          · rw [if_neg hac] at h2 ⊢
            exact h2
        · rw [if_neg hab] at h1
          have hlt1 : a < b := of_decide_eq_true h1
          by_cases hbc : b = c
          · subst hbc
            rw [if_neg hab]
            exact decide_eq_true hlt1
          · rw [if_neg hbc] at h2
            have hlt2 : b < c := of_decide_eq_true h2
            have hac : a ≠ c := ne_of_lt (lt_trans hlt1 hlt2)
            rw [if_neg hac]
            exact decide_eq_true (lt_trans hlt1 hlt2)

theorem lexLE_antisymm : ∀ s t : Str,
    lexLE s t = true → lexLE t s = true → s = t := by
  intro s
  induction s with
  | nil =>
    intro t _ h2
    cases t with
    | nil => rfl
    | cons b bs => simp [lexLE] at h2
  | cons a as ih =>
    intro t h1 h2
    cases t with
    | nil => simp [lexLE] at h1
    | cons b bs =>
      simp only [lexLE] at h1 h2
      by_cases hab : a = b
      · subst hab
        rw [if_pos rfl] at h1 h2
        rw [ih bs h1 h2]
      · rw [if_neg hab] at h1
        rw [if_neg (Ne.symm hab)] at h2
        exact absurd (lt_trans (of_decide_eq_true h1) (of_decide_eq_true h2))
          (lt_irrefl a)

theorem zcLE_total (a b : ZoneCount) : zcLE a b = true ∨ zcLE b a = true := by
  unfold zcLE
  by_cases h : a.count = b.count
  · rw [if_pos h, if_pos h.symm]
    exact lexLE_total _ _
  · rcases Nat.lt_or_ge a.count b.count with hl | hl
    · right
      rw [if_neg (Ne.symm h)]
      exact decide_eq_true hl
    · left
      rw [if_neg h]
      exact decide_eq_true (lt_of_le_of_ne hl (Ne.symm h))

theorem zcLE_trans (a b c : ZoneCount) :
    zcLE a b = true → zcLE b c = true → zcLE a c = true := by
  intro h1 h2
  unfold zcLE at h1 h2 ⊢
  by_cases hab : a.count = b.count <;> by_cases hbc : b.count = c.count
  · rw [if_pos hab] at h1; rw [if_pos hbc] at h2; rw [if_pos (hab.trans hbc)]
    exact lexLE_trans _ _ _ h1 h2
  · rw [if_neg hbc] at h2
    have : a.count ≠ c.count := by omega
    rw [if_neg this]
    have := of_decide_eq_true h2
    exact decide_eq_true (by omega)
  · rw [if_neg hab] at h1
    have : a.count ≠ c.count := by omega
    rw [if_neg this]
    have := of_decide_eq_true h1
    exact decide_eq_true (by omega)
  · rw [if_neg hab] at h1; rw [if_neg hbc] at h2
    have l1 := of_decide_eq_true h1
    have l2 := of_decide_eq_true h2
    have : a.count ≠ c.count := by omega
    rw [if_neg this]
    exact decide_eq_true (by omega)

theorem zcLE_antisymm (a b : ZoneCount) :
    zcLE a b = true → zcLE b a = true → a = b := by
  intro h1 h2
  unfold zcLE at h1 h2
  by_cases hab : a.count = b.count
  · rw [if_pos hab] at h1
    rw [if_pos hab.symm] at h2
    have hz := lexLE_antisymm _ _ h1 h2
    cases a; cases b
    simp_all
  · rw [if_neg hab] at h1
    rw [if_neg (Ne.symm hab)] at h2
    have := of_decide_eq_true h1
    have := of_decide_eq_true h2
    omega

theorem scLE_total (a b : SlotCount) : scLE a b = true ∨ scLE b a = true := by
  unfold scLE
  by_cases h : a.count = b.count
  · rw [if_pos h, if_pos h.symm]
    by_cases hz : a.zone = b.zone
    · rw [if_pos hz, if_pos hz.symm]
      rcases Nat.le_total a.hour b.hour with hh | hh
      · exact Or.inl (decide_eq_true hh)
      · exact Or.inr (decide_eq_true hh)
    · rw [if_neg hz, if_neg (Ne.symm hz)]
      exact lexLE_total _ _
  · rcases Nat.lt_or_ge a.count b.count with hl | hl
    · right
      rw [if_neg (Ne.symm h)]
      exact decide_eq_true hl
    · left
      rw [if_neg h]
      exact decide_eq_true (lt_of_le_of_ne hl (Ne.symm h))

theorem scLE_trans (a b c : SlotCount) :
    scLE a b = true → scLE b c = true → scLE a c = true := by
  intro h1 h2
  unfold scLE at h1 h2 ⊢
  by_cases hab : a.count = b.count <;> by_cases hbc : b.count = c.count
  · rw [if_pos hab] at h1; rw [if_pos hbc] at h2; rw [if_pos (hab.trans hbc)]
    by_cases hz1 : a.zone = b.zone <;> by_cases hz2 : b.zone = c.zone
    · rw [if_pos hz1] at h1; rw [if_pos hz2] at h2; rw [if_pos (hz1.trans hz2)]
      have := of_decide_eq_true h1
      have := of_decide_eq_true h2
      exact decide_eq_true (by omega)
    · rw [if_pos hz1] at h1; rw [if_neg hz2] at h2
      rw [if_neg (hz1 ▸ hz2)]
      exact hz1 ▸ h2
    · rw [if_neg hz1] at h1; rw [if_pos hz2] at h2
      rw [if_neg (fun h => hz1 (h.trans hz2.symm))]
      exact hz2 ▸ h1
    · rw [if_neg hz1] at h1; rw [if_neg hz2] at h2
      by_cases hz : a.zone = c.zone
      · exact absurd (lexLE_antisymm _ _ h1 (hz ▸ h2)) hz1
      · rw [if_neg hz]
        exact lexLE_trans _ _ _ h1 h2
  · rw [if_neg hbc] at h2
    have : a.count ≠ c.count := by omega
    rw [if_neg this]
    have := of_decide_eq_true h2
    exact decide_eq_true (by omega)
  · rw [if_neg hab] at h1
    have : a.count ≠ c.count := by omega
    rw [if_neg this]
    have := of_decide_eq_true h1
    exact decide_eq_true (by omega)
  · rw [if_neg hab] at h1; rw [if_neg hbc] at h2
    have l1 := of_decide_eq_true h1
    have l2 := of_decide_eq_true h2
    have : a.count ≠ c.count := by omega
    rw [if_neg this]
    exact decide_eq_true (by omega)

theorem scLE_antisymm (a b : SlotCount) :
    scLE a b = true → scLE b a = true → a = b := by
  intro h1 h2
  unfold scLE at h1 h2
  by_cases hab : a.count = b.count
  · rw [if_pos hab] at h1
    rw [if_pos hab.symm] at h2
    by_cases hz : a.zone = b.zone
    · rw [if_pos hz] at h1
      rw [if_pos hz.symm] at h2
      have hh : a.hour = b.hour :=
        le_antisymm (of_decide_eq_true h1) (of_decide_eq_true h2)
      cases a; cases b
      simp_all
    · rw [if_neg hz] at h1
      rw [if_neg (Ne.symm hz)] at h2
      exact absurd (lexLE_antisymm _ _ h1 h2) hz
  · rw [if_neg hab] at h1
    rw [if_neg (Ne.symm hab)] at h2
    have := of_decide_eq_true h1
    have := of_decide_eq_true h2
    omega

instance : IsTotal ZoneCount zcR := ⟨zcLE_total⟩

instance : IsTrans ZoneCount zcR := ⟨zcLE_trans⟩

instance : IsAntisymm ZoneCount zcR := ⟨zcLE_antisymm⟩

instance : IsTotal SlotCount scR := ⟨scLE_total⟩

instance : IsTrans SlotCount scR := ⟨scLE_trans⟩

instance : IsAntisymm SlotCount scR := ⟨scLE_antisymm⟩

/-- Sorting under an antisymmetric total order is determined by the
multiset of inputs: any two permuted inputs sort to the same list. -/
theorem insertionSort_eq_of_perm {α : Type} (r : α → α → Prop) [DecidableRel r]
    [IsTotal α r] [IsTrans α r] [IsAntisymm α r] {l1 l2 : List α}
    (h : l1.Perm l2) :
    List.insertionSort r l1 = List.insertionSort r l2 :=
  List.eq_of_perm_of_sorted
    (((List.perm_insertionSort r l1).trans h).trans
      (List.perm_insertionSort r l2).symm)
    (List.sorted_insertionSort r l1) (List.sorted_insertionSort r l2)

/-- C3: the sequences returned by the rankers are sorted by count
descending with ties broken by zone ascending (relation `zcR`), for slots
further by hour ascending (relation `scR`), and the result is the same
for any iteration order of the unordered tally structures (modelled as a
permutation of the association list backing the map). -/
theorem C3_ranking_deterministic (k : Int)
    (m1 m2 : List (Str × Nat)) (mh1 mh2 : List (Str × List Nat))
    (hm : m1.Perm m2) (hmh : mh1.Perm mh2) :
    (Analyzer.topZonesList m1 k).Sorted zcR ∧
    Analyzer.topZonesList m1 k = Analyzer.topZonesList m2 k ∧
    (Analyzer.topBusySlotsList mh1 k).Sorted scR ∧
    Analyzer.topBusySlotsList mh1 k = Analyzer.topBusySlotsList mh2 k := by
  unfold Analyzer.topZonesList Analyzer.topBusySlotsList
  by_cases hk : k ≤ 0
  · simp [hk, List.Sorted]
  · simp only [if_neg hk]
    refine ⟨(List.sorted_insertionSort zcR _).sublist (List.take_sublist _ _),
      ?_,
      (List.sorted_insertionSort scR _).sublist (List.take_sublist _ _),
      ?_⟩
    · have hc : (Analyzer.zoneCandidates m1).Perm (Analyzer.zoneCandidates m2) :=
        hm.map _
      rw [insertionSort_eq_of_perm zcR hc]
    · have hc : (Analyzer.slotCandidates mh1).Perm (Analyzer.slotCandidates mh2) :=
        hmh.flatMap_right _
      rw [insertionSort_eq_of_perm scR hc]

theorem C3_ranking_deterministic_witness :
    (Analyzer.topZonesList [("A".toList, 1), ("B".toList, 2)] 10).Sorted zcR ∧
    Analyzer.topZonesList [("A".toList, 1), ("B".toList, 2)] 10 =
      Analyzer.topZonesList [("B".toList, 2), ("A".toList, 1)] 10 ∧
    (Analyzer.topBusySlotsList
      [("A".toList, Analyzer.zeros24.set 8 2), ("B".toList, Analyzer.zeros24.set 23 1)] 10).Sorted scR ∧
    Analyzer.topBusySlotsList
      [("A".toList, Analyzer.zeros24.set 8 2), ("B".toList, Analyzer.zeros24.set 23 1)] 10 =
      Analyzer.topBusySlotsList
      [("B".toList, Analyzer.zeros24.set 23 1), ("A".toList, Analyzer.zeros24.set 8 2)] 10 :=
  C3_ranking_deterministic 10 _ _ _ _ (by decide) (by decide)

/-! ## Partial selection refines full sorting (for claim C9) -/

theorem findMinBy_mem {α : Type} (r : α → α → Prop) [DecidableRel r] :
    ∀ (bs : List α) (a : α), findMinBy r a bs ∈ a :: bs := by
  intro bs
  induction bs with
  | nil => intro a; simp [findMinBy]
  | cons b bs ih =>
    intro a
    simp only [findMinBy]
    by_cases hr : r a b
    · rw [if_pos hr]
      rcases List.mem_cons.mp (ih a) with h | h
      · simp [h]
      · simp [h]
    · rw [if_neg hr]
      rcases List.mem_cons.mp (ih b) with h | h
      · simp [h]
      · simp [h]

theorem findMinBy_le {α : Type} (r : α → α → Prop) [DecidableRel r]
    [IsTotal α r] [IsTrans α r] :
    ∀ (bs : List α) (a : α) (x : α), x ∈ a :: bs → r (findMinBy r a bs) x := by
  intro bs
  induction bs with
  | nil =>
    intro a x hx
    rcases List.mem_cons.mp hx with h | h
    · subst h
      simp only [findMinBy]
      exact (total_of r x x).elim id id
    · simp at h
  | cons b bs ih =>
    intro a x hx
    simp only [findMinBy]
    have hca : r (if r a b then a else b) a := by
      by_cases hr : r a b
      · rw [if_pos hr]
        exact (total_of r a a).elim id id
      · rw [if_neg hr]
        exact (total_of r a b).resolve_left hr
    have hcb : r (if r a b then a else b) b := by
      by_cases hr : r a b
      · rw [if_pos hr]; exact hr
      · rw [if_neg hr]
        exact (total_of r b b).elim id id
    have hmc : r (findMinBy r (if r a b then a else b) bs) (if r a b then a else b) :=
      ih _ _ (List.mem_cons_self _ _)
    rcases List.mem_cons.mp hx with h | h
    · subst h
      exact Trans.trans hmc hca
    · rcases List.mem_cons.mp h with h' | h'
      · subst h'
        exact Trans.trans hmc hcb
      · exact ih _ _ (List.mem_cons_of_mem _ h')

/-- Under an antisymmetric total order, the sorted arrangement of a list
starts with its minimum, followed by the sorted arrangement of the rest. -/
theorem insertionSort_cons_min {α : Type} {r : α → α → Prop} [DecidableRel r]
    [IsTotal α r] [IsTrans α r] [IsAntisymm α r] [DecidableEq α]
    {l : List α} {m : α} (hm : m ∈ l) (hmin : ∀ x ∈ l, r m x) :
    List.insertionSort r l = m :: List.insertionSort r (l.erase m) := by
  refine List.eq_of_perm_of_sorted ?_ (List.sorted_insertionSort r l) ?_
  · exact ((List.perm_insertionSort r l).trans (List.perm_cons_erase hm)).trans
      ((List.perm_insertionSort r (l.erase m)).cons m).symm
  · refine List.sorted_cons.mpr ⟨?_, List.sorted_insertionSort r _⟩
    intro x hx
    exact hmin x (List.mem_of_mem_erase ((List.perm_insertionSort r _).mem_iff.mp hx))

theorem partialSelectTopK_eq {α : Type} (r : α → α → Prop) [DecidableRel r]
    [IsTotal α r] [IsTrans α r] [IsAntisymm α r] [DecidableEq α] :
    ∀ (k : Nat) (l : List α),
      partialSelectTopK r k l = (List.insertionSort r l).take k := by
  intro k
  induction k with
  | zero => intro l; simp [partialSelectTopK]
  | succ k ih =>
    intro l
    cases l with
    | nil => simp [partialSelectTopK]
    | cons a as =>
      simp only [partialSelectTopK]
      rw [insertionSort_cons_min (findMinBy_mem r as a) (findMinBy_le r as a),
        List.take_succ_cons, ih]

/-- C9: selecting the top `k` by partial selection (only the top `k`
ordered, remainder discarded) yields exactly the same sequence as the
full sort followed by truncation performed by `topZones`/`topBusySlots`,
over every candidate list and every requested size. -/
theorem C9_partial_selection_eq_full_sort :
    (∀ (k : Int) (m : List (Str × Nat)),
      Analyzer.topZonesList m k =
        partialSelectTopK zcR k.toNat (Analyzer.zoneCandidates m)) ∧
    (∀ (k : Int) (mh : List (Str × List Nat)),
      Analyzer.topBusySlotsList mh k =
        partialSelectTopK scR k.toNat (Analyzer.slotCandidates mh)) := by
  constructor
  · intro k m
    rw [partialSelectTopK_eq]
    unfold Analyzer.topZonesList
    by_cases hk : k ≤ 0
    · rw [if_pos hk, Int.toNat_eq_zero.mpr hk, List.take_zero]
    · rw [if_neg hk]
  · intro k mh
    rw [partialSelectTopK_eq]
    unfold Analyzer.topBusySlotsList
    by_cases hk : k ≤ 0
    · rw [if_pos hk, Int.toNat_eq_zero.mpr hk, List.take_zero]
    · rw [if_neg hk]

/-! ## Non-positive requested sizes (claim C4) -/

/-- C4 counterexample: the khanapi variant has no `k <= 0` guard.  For a
negative `k`, `(int)v.size() > k` always holds, and `v.resize(k)` converts
`k` to an astronomically large `size_t`, so `std::vector::resize` raises
`std::length_error` — the claim says every `k ≤ 0` returns an empty
sequence and raises no error. -/
theorem C4_counterexample :
    Khan.topZones ⟨[], []⟩ (-5) = Except.error "length_error" ∧
    Khan.topBusySlots ⟨[], []⟩ (-5) = Except.error "length_error" := by
  constructor <;> rfl

/-- C4 amended: in `analyzer.cpp`, `topZones(k)` and `topBusySlots(k)`
return an empty sequence for every `k ≤ 0` and raise no error; in the
khanapi variant `k = 0` returns an empty sequence, but a negative `k`
reaches `v.resize(k)` whose size argument wraps to a huge unsigned value
and raises `length_error`. -/
theorem C4_nonpositive_k_amended :
    (∀ (m : List (Str × Nat)) (k : Int), k ≤ 0 →
      Analyzer.topZonesList m k = []) ∧
    (∀ (mh : List (Str × List Nat)) (k : Int), k ≤ 0 →
      Analyzer.topBusySlotsList mh k = []) ∧
    (∀ st : Khan.KState,
      Khan.topZones st 0 = Except.ok [] ∧
      Khan.topBusySlots st 0 = Except.ok []) ∧
    (∀ (st : Khan.KState) (k : Int), k < 0 →
      Khan.topZones st k = Except.error "length_error" ∧
      Khan.topBusySlots st k = Except.error "length_error") := by
  refine ⟨fun m k hk => by simp [Analyzer.topZonesList, hk],
    fun mh k hk => by simp [Analyzer.topBusySlotsList, hk], ?_, ?_⟩
  · intro st
    constructor
    · simp only [Khan.topZones]
      by_cases hv : List.insertionSort zcR (st.zoneCount.map fun p => ⟨p.1, p.2⟩) = []
      · rw [hv]
        simp
      · have hpos : 0 < (List.insertionSort zcR
            (st.zoneCount.map fun p => ⟨p.1, p.2⟩)).length :=
          List.length_pos.mpr hv
        rw [if_pos (by exact_mod_cast hpos), if_neg (by omega)]
        simp
    · simp only [Khan.topBusySlots]
      by_cases hv : List.insertionSort scR
          (st.zoneHourCount.flatMap fun p => p.2.map fun q => (⟨p.1, q.1, q.2⟩ : SlotCount)) = []
      · rw [hv]
        simp
      · have hpos : 0 < (List.insertionSort scR
            (st.zoneHourCount.flatMap fun p => p.2.map fun q => (⟨p.1, q.1, q.2⟩ : SlotCount))).length :=
          List.length_pos.mpr hv
        rw [if_pos (by exact_mod_cast hpos), if_neg (by omega)]
        simp
  · intro st k hk
    constructor
    · simp only [Khan.topZones]
      rw [if_pos (by omega), if_pos hk]
    · simp only [Khan.topBusySlots]
      rw [if_pos (by omega), if_pos hk]

theorem C4_nonpositive_k_witness :
    Analyzer.topZonesList [("A".toList, 3)] (-5) = [] ∧
    Analyzer.topBusySlotsList [("A".toList, Analyzer.zeros24.set 8 1)] 0 = [] ∧
    Khan.topZones ⟨[("A".toList, 3)], []⟩ 0 = Except.ok [] ∧
    Khan.topBusySlots ⟨[("A".toList, 3)], [("A".toList, [(8, 3)])]⟩ (-7) =
      Except.error "length_error" :=
  ⟨C4_nonpositive_k_amended.1 _ _ (by decide),
   C4_nonpositive_k_amended.2.1 _ _ (by decide),
   (C4_nonpositive_k_amended.2.2.1 _).1,
   (C4_nonpositive_k_amended.2.2.2 _ _ (by decide)).2⟩

/-! ## The per-zone total equals the sum of its hour slots (claim C2) -/

theorem lookupD_bump_self {κ : Type} [DecidableEq κ] (m : List (κ × Nat)) (k : κ) :
    lookupD (bump m k) k 0 = lookupD m k 0 + 1 := by
  induction m with
  | nil => simp [bump, lookupD]
  | cons p rest ih =>
    obtain ⟨k', v⟩ := p
    by_cases h : k' = k
    · subst h
      simp [bump, lookupD]
    · simp [bump, lookupD, h, ih]

theorem lookupD_bump_ne {κ : Type} [DecidableEq κ] (m : List (κ × Nat))
    {k z : κ} (h : z ≠ k) : lookupD (bump m k) z 0 = lookupD m z 0 := by
  induction m with
  | nil => simp [bump, lookupD, Ne.symm h]
  | cons p rest ih =>
    obtain ⟨k', v⟩ := p
    by_cases hk : k' = k
    · subst hk
      simp [bump, lookupD, Ne.symm h]
    · by_cases hz : k' = z
      · subst hz
        simp [bump, lookupD, hk]
      · simp [bump, lookupD, hk, hz, ih]

theorem getD_replicate_zero (n i : Nat) : (List.replicate n 0).getD i 0 = 0 := by
  induction n generalizing i with
  | zero => simp [List.getD]
  | succ n ih =>
    cases i with
    | zero => simp [List.replicate_succ]
    | succ j => simp only [List.replicate_succ, List.getD_cons_succ]; exact ih j

theorem sum_set_getD_succ :
    ∀ (l : List Nat) (h : Nat), h < l.length →
      (l.set h (l.getD h 0 + 1)).sum = l.sum + 1 := by
  intro l
  induction l with
  | nil => intro h hh; simp at hh
  | cons a t ih =>
    intro h hh
    cases h with
    | zero => simp [List.getD_cons_zero, Nat.add_assoc, Nat.add_comm 1]
    | succ n =>
      simp only [List.getD_cons_succ, List.set_cons_succ, List.sum_cons]
      rw [ih n (by simpa using hh)]
      omega

namespace Analyzer

theorem zeros24_getD (h : Nat) : zeros24.getD h 0 = 0 :=
  getD_replicate_zero 24 h

theorem lookupD_bumpHour_self (m : List (Str × List Nat)) (z : Str) (h : Nat) :
    lookupD (bumpHour m z h) z zeros24 =
      (lookupD m z zeros24).set h ((lookupD m z zeros24).getD h 0 + 1) := by
  induction m with
  | nil =>
    have h0 : zeros24.getD h 0 = 0 := zeros24_getD h
    simp only [List.getD_eq_getElem?_getD] at h0
    simp [bumpHour, lookupD, h0]
  | cons p rest ih =>
    obtain ⟨k, arr⟩ := p
    by_cases hk : k = z
    · subst hk
      simp [bumpHour, lookupD]
    · simp [bumpHour, lookupD, hk, ih]

theorem lookupD_bumpHour_ne (m : List (Str × List Nat)) {z z' : Str} (h : Nat)
    (hne : z' ≠ z) :
    lookupD (bumpHour m z h) z' zeros24 = lookupD m z' zeros24 := by
  induction m with
  | nil => simp [bumpHour, lookupD, Ne.symm hne]
  | cons p rest ih =>
    obtain ⟨k, arr⟩ := p
    by_cases hk : k = z
    · subst hk
      simp [bumpHour, lookupD, Ne.symm hne]
    · by_cases hz : k = z'
      · subst hz
        simp [bumpHour, lookupD, hk]
      · simp [bumpHour, lookupD, hk, hz, ih]

theorem wf_bumpHour {m : List (Str × List Nat)}
    (hwf : ∀ p ∈ m, p.2.length = 24) (z : Str) (h : Nat) :
    ∀ p ∈ bumpHour m z h, p.2.length = 24 := by
  induction m with
  | nil =>
    intro p hp
    simp only [bumpHour, List.mem_singleton] at hp
    subst hp
    simp [zeros24]
  | cons q rest ih =>
    obtain ⟨k, arr⟩ := q
    intro p hp
    by_cases hk : k = z
    · subst hk
      simp only [bumpHour, eq_self_iff_true, if_true, List.mem_cons] at hp
      rcases hp with hp | hp
      · subst hp
        simpa using hwf (k, arr) (List.mem_cons_self _ _)
      · exact hwf p (List.mem_cons_of_mem _ hp)
    · simp only [bumpHour, if_neg hk, List.mem_cons] at hp
      rcases hp with hp | hp
      · subst hp
        exact hwf _ (List.mem_cons_self _ _)
      · exact ih (fun q hq => hwf q (List.mem_cons_of_mem _ hq)) p hp

theorem lookupD_zoneHour_length {m : List (Str × List Nat)}
    (hwf : ∀ p ∈ m, p.2.length = 24) (z : Str) :
    (lookupD m z zeros24).length = 24 := by
  induction m with
  | nil => simp [lookupD, zeros24]
  | cons p rest ih =>
    obtain ⟨k, arr⟩ := p
    by_cases hk : k = z
    · subst hk
      simpa [lookupD] using hwf (k, arr) (List.mem_cons_self _ _)
    · simp only [lookupD, if_neg hk]
      exact ih fun q hq => hwf q (List.mem_cons_of_mem _ hq)

theorem goodState_accept {st : AggState} (z : Str) {h : Nat} (hh : h < 24)
    (hg : goodState st) : goodState (accept st z h) := by
  obtain ⟨hwf, hinv⟩ := hg
  refine ⟨wf_bumpHour hwf z h, ?_⟩
  intro z'
  by_cases hz : z' = z
  · subst hz
    rw [show (accept st z' h).zoneTrips = bump st.zoneTrips z' from rfl,
      show (accept st z' h).zoneHour = bumpHour st.zoneHour z' h from rfl,
      lookupD_bump_self, lookupD_bumpHour_self, hinv z',
      sum_set_getD_succ _ h (by rw [lookupD_zoneHour_length hwf]; exact hh)]
  · rw [show (accept st z h).zoneTrips = bump st.zoneTrips z from rfl,
      show (accept st z h).zoneHour = bumpHour st.zoneHour z h from rfl,
      lookupD_bump_ne _ hz, lookupD_bumpHour_ne _ _ hz, hinv z']

theorem parseHourFromDatetime_lt24 {dt : Str} {h : Nat}
    (he : parseHourFromDatetime dt = some h) : h < 24 := by
  simp only [parseHourFromDatetime] at he
  split at he
  · exact absurd he (by simp)
  · split at he
    · exact absurd he (by simp)
    · split at he
      · exact absurd he (by simp)
      · split at he
        · split at he
          · rw [Option.some_inj] at he
            omega
          · exact absurd he (by simp)
        · exact absurd he (by simp)

/-- Every line either leaves the state unchanged or performs one `accept`
with an hour below 24. -/
theorem processLine_cases (st : AggState) (l : Str) :
    processLine st l = st ∨
      ∃ z h, h < 24 ∧ processLine st l = accept st z h := by
  simp only [processLine]
  split
  · exact Or.inl rfl
  · split
    · exact Or.inl rfl
    · split
      · exact Or.inl rfl
      · split
        · exact Or.inl rfl
        · split
          · exact Or.inl rfl
          · split
            · exact Or.inl rfl
            · split
              · exact Or.inl rfl
              · split
                · exact Or.inl rfl
                · split
                  · exact Or.inl rfl
                  · split
                    · exact Or.inl rfl
                    · rename_i heq
                      exact Or.inr ⟨_, _, parseHourFromDatetime_lt24 heq, rfl⟩

theorem goodState_ingestLines (lines : List Str) :
    goodState (ingestLines lines) := by
  have hstep : ∀ (st : AggState) (ls : List Str), goodState st →
      goodState (ls.foldl processLine st) := by
    intro st ls
    induction ls generalizing st with
    | nil => intro h; exact h
    | cons l ls ih =>
      intro h
      refine ih _ ?_
      rcases processLine_cases st l with hc | ⟨z, hr, hlt, hc⟩
      · rw [hc]; exact h
      · rw [hc]; exact goodState_accept z hlt h
  refine hstep _ _ ⟨?_, ?_⟩
  · intro p hp
    simp at hp
  · intro z
    simp [lookupD, zeros24]

end Analyzer

namespace Khan

theorem lookupD_bumpNested_self (m : List (Str × List (Nat × Nat))) (z : Str)
    (h : Nat) :
    lookupD (bumpNested m z h) z [] = bump (lookupD m z []) h := by
  induction m with
  | nil => simp [bumpNested, lookupD]
  | cons p rest ih =>
    obtain ⟨k, im⟩ := p
    by_cases hk : k = z
    · subst hk
      simp [bumpNested, lookupD]
    · simp [bumpNested, lookupD, hk, ih]

theorem lookupD_bumpNested_ne (m : List (Str × List (Nat × Nat))) {z z' : Str}
    (h : Nat) (hne : z' ≠ z) :
    lookupD (bumpNested m z h) z' [] = lookupD m z' [] := by
  induction m with
  | nil => simp [bumpNested, lookupD, Ne.symm hne]
  | cons p rest ih =>
    obtain ⟨k, im⟩ := p
    by_cases hk : k = z
    · subst hk
      simp [bumpNested, lookupD, Ne.symm hne]
    · by_cases hz : k = z'
      · subst hz
        simp [bumpNested, lookupD, hk]
      · simp [bumpNested, lookupD, hk, hz, ih]

theorem sum_map_bump (im : List (Nat × Nat)) (h : Nat) :
    ((bump im h).map Prod.snd).sum = (im.map Prod.snd).sum + 1 := by
  induction im with
  | nil => simp [bump]
  | cons p rest ih =>
    obtain ⟨k, v⟩ := p
    by_cases hk : k = h
    · subst hk
      simp [bump, Nat.add_assoc, Nat.add_comm 1]
    · simp only [bump, if_neg hk, List.map_cons, List.sum_cons, ih]
      omega

theorem khanLine_cases (st : KState) (l : Str) :
    khanLine st l = st ∨
      ∃ z h, khanLine st l =
        ⟨bump st.zoneCount z, bumpNested st.zoneHourCount z h⟩ := by
  simp only [khanLine]
  split
  · exact Or.inl rfl
  · split
    · exact Or.inl rfl
    · split
      · exact Or.inl rfl
      · exact Or.inr ⟨_, _, rfl⟩

theorem goodK_khanLine {st : KState} (l : Str) (hg : goodK st) :
    goodK (khanLine st l) := by
  rcases khanLine_cases st l with hc | ⟨z, h, hc⟩
  · rw [hc]; exact hg
  · rw [hc]
    intro z'
    by_cases hz : z' = z
    · subst hz
      show lookupD (bump st.zoneCount z') z' 0 =
        ((lookupD (bumpNested st.zoneHourCount z' h) z' []).map Prod.snd).sum
      rw [lookupD_bump_self, lookupD_bumpNested_self, sum_map_bump, hg z']
    · show lookupD (bump st.zoneCount z) z' 0 =
        ((lookupD (bumpNested st.zoneHourCount z h) z' []).map Prod.snd).sum
      rw [lookupD_bump_ne _ hz, lookupD_bumpNested_ne _ _ hz, hg z']

theorem goodK_ingestStdin (lines : List Str) : goodK (ingestStdin lines) := by
  have hstep : ∀ (st : KState) (ls : List Str), goodK st →
      goodK (ls.foldl khanLine st) := by
    intro st ls
    induction ls generalizing st with
    | nil => intro h; exact h
    | cons l ls ih => intro h; exact ih _ (goodK_khanLine l h)
  cases lines with
  | nil =>
    intro z
    simp [ingestStdin, lookupD]
  | cons first rest =>
    show goodK (rest.foldl khanLine ⟨[], []⟩)
    refine hstep _ _ ?_
    intro z
    simp [lookupD]

end Khan

/-- C2: after ingesting any sequence of lines, every zone's total trip
count equals the sum over all 24 hours of its per-(zone, hour) slot
counts — in `analyzer.cpp` the sum of the zone's 24-slot array, in the
khanapi variant the sum of the values of the zone's nested hour map.
(Zones that never occur satisfy it as `0 = 0`.) -/
theorem C2_total_eq_sum_of_slots (lines : List Str) (z : Str) :
    lookupD (Analyzer.ingestLines lines).zoneTrips z 0 =
      (lookupD (Analyzer.ingestLines lines).zoneHour z Analyzer.zeros24).sum ∧
    lookupD (Khan.ingestStdin lines).zoneCount z 0 =
      ((lookupD (Khan.ingestStdin lines).zoneHourCount z []).map Prod.snd).sum :=
  ⟨(Analyzer.goodState_ingestLines lines).2 z, Khan.goodK_ingestStdin lines z⟩

/-! ## Field extraction agrees with comma splitting -/

theorem splitAll_ne_nil : ∀ s : Str, splitAll s ≠ [] := by
  intro s
  induction s with
  | nil => simp [splitAll]
  | cons c cs ih =>
    simp only [splitAll]
    split
    · simp
    · split
      · simp
      · simp

theorem splitAll_no_comma : ∀ {s : Str}, ',' ∉ s → splitAll s = [s] := by
  intro s
  induction s with
  | nil => intro _; rfl
  | cons c cs ih =>
    intro h
    have hc : ¬ c = ',' := fun e => h (by rw [← e]; exact List.mem_cons_self c cs)
    have hcs : ',' ∉ cs := fun hm => h (List.mem_cons_of_mem _ hm)
    simp only [splitAll, if_neg hc, ih hcs]

theorem splitAll_append : ∀ {f : Str} (r : Str), ',' ∉ f →
    splitAll (f ++ ',' :: r) = f :: splitAll r := by
  intro f
  induction f with
  | nil => intro r _; simp [splitAll]
  | cons c cs ih =>
    intro r h
    have hc : ¬ c = ',' := fun e => h (by rw [← e]; exact List.mem_cons_self c cs)
    have hcs : ',' ∉ cs := fun hm => h (List.mem_cons_of_mem _ hm)
    simp only [List.cons_append, splitAll, if_neg hc, List.append_eq]
    rw [ih r hcs]

theorem findIdxC_none {ch : Char} : ∀ {s : Str}, findIdxC ch s = none → ch ∉ s := by
  intro s
  induction s with
  | nil => intro _; simp
  | cons c cs ih =>
    intro h
    simp only [findIdxC] at h
    by_cases hc : c = ch
    · rw [if_pos hc] at h
      exact absurd h (by simp)
    · rw [if_neg hc] at h
      intro hm
      rcases List.mem_cons.mp hm with he | hm'
      · exact hc he.symm
      · exact ih (Option.map_eq_none'.mp h) hm'

theorem findIdxC_some {ch : Char} :
    ∀ {s : Str} {i : Nat}, findIdxC ch s = some i →
      ∃ F R, s = F ++ ch :: R ∧ ch ∉ F ∧ F.length = i := by
  intro s
  induction s with
  | nil => intro i h; simp [findIdxC] at h
  | cons c cs ih =>
    intro i h
    simp only [findIdxC] at h
    by_cases hc : c = ch
    · rw [if_pos hc] at h
      have hi : i = 0 := (Option.some_inj.mp h).symm
      subst hi
      exact ⟨[], cs, by rw [hc]; rfl, by simp, rfl⟩
    · rw [if_neg hc] at h
      rcases Option.map_eq_some'.mp h with ⟨j, hj, hji⟩
      rcases ih hj with ⟨F, R, hs, hF, hFl⟩
      refine ⟨c :: F, R, by rw [hs]; rfl, ?_, ?_⟩
      · intro hm
        rcases List.mem_cons.mp hm with he | hm'
        · exact hc he.symm
        · exact hF hm'
      · simp only [List.length_cons, hFl]
        omega

namespace Analyzer

theorem readField_false_none {line : Str} {pos : Nat} (hpos : pos ≤ line.length)
    (h : readField line pos false = none) :
    splitAll (line.drop pos) = [line.drop pos] := by
  unfold readField at h
  rw [if_neg (by omega)] at h
  cases hf : findFrom line ',' pos with
  | some comma =>
    rw [hf] at h
    exact absurd h (by simp)
  | none =>
    have hn : findIdxC ',' (line.drop pos) = none := Option.map_eq_none'.mp hf
    exact splitAll_no_comma (findIdxC_none hn)

theorem readField_false_some {line : Str} {pos pos' : Nat} {f : Str}
    (h : readField line pos false = some (f, pos')) :
    pos' ≤ line.length ∧
      splitAll (line.drop pos) = f :: splitAll (line.drop pos') := by
  unfold readField at h
  by_cases hp : line.length < pos
  · rw [if_pos hp] at h
    exact absurd h (by simp)
  · rw [if_neg hp] at h
    cases hf : findFrom line ',' pos with
    | none =>
      rw [hf] at h
      simp at h
    | some comma =>
      rw [hf] at h
      have hfe : f = (line.drop pos).take (comma - pos) :=
        (congrArg Prod.fst (Option.some_inj.mp h)).symm
      have hpe : pos' = comma + 1 :=
        (congrArg Prod.snd (Option.some_inj.mp h)).symm
      rcases Option.map_eq_some'.mp hf with ⟨i, hidx, hic⟩
      rcases findIdxC_some hidx with ⟨F, R, hs, hF, hFl⟩
      have hlen : (line.drop pos).length = line.length - pos := List.length_drop pos line
      have hslen : (line.drop pos).length = F.length + 1 + R.length := by
        rw [hs]
        simp only [List.length_append, List.length_cons]
        omega
      have hcomma : comma = pos + i := hic.symm
      have hdropR : line.drop pos' = R := by
        have h1 : line.drop pos' = (line.drop pos).drop (i + 1) := by
          rw [hpe, hcomma, List.drop_drop, Nat.add_assoc]
        rw [h1, hs, show F ++ ',' :: R = (F ++ [',']) ++ R by simp,
          show i + 1 = (F ++ [',']).length by simp [hFl]]
        exact List.drop_left _ _
      constructor
      · rw [hpe, hcomma]
        omega
      · rw [hfe, hcomma, Nat.add_sub_cancel_left, hs, hdropR, ← hFl,
          List.take_left F (',' :: R)]
        exact splitAll_append R hF

theorem readField_true_some {line : Str} {pos : Nat} (hpos : pos ≤ line.length) :
    ∃ f pos2, readField line pos true = some (f, pos2) := by
  unfold readField
  rw [if_neg (by omega)]
  cases findFrom line ',' pos with
  | none => exact ⟨_, _, rfl⟩
  | some comma => exact ⟨_, _, rfl⟩

end Analyzer

namespace Analyzer

/-- The loop body of `ingestFile` is exactly the spec's
`parse(line) -> Some(zone, hour) | None` contract followed by one
`accept`: the six `readField` calls succeed precisely when the line has
at least six comma-separated fields, the zone is field index 1 and the
timestamp field index 3, and any validation failure leaves the state
untouched. -/
theorem processLine_eq_parseLine (st : AggState) (l : Str) :
    processLine st l =
      match parseLine l with
      | none => st
      | some (z, h) => accept st z h := by
  simp only [processLine, parseLine]
  by_cases hs : stripCR l = []
  · simp [hs]
  · simp only [if_neg hs]
    by_cases hh : isHeaderLine (stripCR l) = true
    · simp [hh]
    · simp only [hh, if_false, Bool.false_eq_true]
      set s := stripCR l with hsdef
      rcases h1 : readField s 0 false with _ | ⟨f1, p1⟩
      · have hsp := readField_false_none (Nat.zero_le _) h1
        rw [List.drop_zero] at hsp
        simp [h1, hsp]
      · obtain ⟨hq1, hsp1⟩ := readField_false_some h1
        rw [List.drop_zero] at hsp1
        simp only [h1]
        rcases h2 : readField s p1 false with _ | ⟨zf, p2⟩
        · have hsp := readField_false_none hq1 h2
          rw [hsp] at hsp1
          simp [h2, hsp1]
        · obtain ⟨hq2, hsp2⟩ := readField_false_some h2
          rw [hsp2] at hsp1
          simp only [h2]
          rcases h3 : readField s p2 false with _ | ⟨f3, p3⟩
          · have hsp := readField_false_none hq2 h3
            rw [hsp] at hsp1
            simp [h3, hsp1]
          · obtain ⟨hq3, hsp3⟩ := readField_false_some h3
            rw [hsp3] at hsp1
            simp only [h3]
            rcases h4 : readField s p3 false with _ | ⟨dtf, p4⟩
            · have hsp := readField_false_none hq3 h4
              rw [hsp] at hsp1
              simp [h4, hsp1]
            · obtain ⟨hq4, hsp4⟩ := readField_false_some h4
              rw [hsp4] at hsp1
              simp only [h4]
              rcases h5 : readField s p4 false with _ | ⟨f5, p5⟩
              · have hsp := readField_false_none hq4 h5
                rw [hsp] at hsp1
                simp [h5, hsp1]
              · obtain ⟨hq5, hsp5⟩ := readField_false_some h5
                rw [hsp5] at hsp1
                simp only [h5]
                obtain ⟨f6, p6, h6⟩ := readField_true_some hq5
                have hne : splitAll (s.drop p5) ≠ [] := splitAll_ne_nil _
                simp only [h6]
                have hlen : ¬ ((f1 :: zf :: f3 :: dtf :: f5 ::
                    splitAll (s.drop p5)).length < 6) := by
                  simp only [List.length_cons]
                  have := List.length_pos.mpr hne
                  omega
                rw [hsp1, if_neg hlen]
                simp only [List.getD_cons_succ, List.getD_cons_zero]
                by_cases hz : trimL zf = []
                · rw [if_pos hz, if_pos hz]
                · rw [if_neg hz, if_neg hz]
                  rcases hpp : parseHourFromDatetime (trimL dtf) with _ | hr
                  · rfl
                  · rfl

end Analyzer

/-! ## The khanapi variant discards the first input line (claim C10) -/

namespace Khan

theorem khanLine_zone_cases (st : KState) (l : Str) :
    (khanZone l = none ∧ khanLine st l = st) ∨
      ∃ z h, khanZone l = some z ∧
        khanLine st l = ⟨bump st.zoneCount z, bumpNested st.zoneHourCount z h⟩ := by
  simp only [khanLine, khanZone]
  split
  · exact Or.inl ⟨rfl, rfl⟩
  · split
    · exact Or.inl ⟨rfl, rfl⟩
    · split
      · exact Or.inl ⟨rfl, rfl⟩
      · exact Or.inr ⟨_, _, rfl, rfl⟩

theorem khanLine_count (st : KState) (l : Str) (z : Str) :
    lookupD (khanLine st l).zoneCount z 0 =
      lookupD st.zoneCount z 0 + (if khanZone l = some z then 1 else 0) := by
  rcases khanLine_zone_cases st l with ⟨hz, hc⟩ | ⟨zz, hh, hz, hc⟩
  · rw [hc, hz]
    simp
  · rw [hc, hz]
    by_cases hzz : zz = z
    · subst hzz
      simp [lookupD_bump_self]
    · rw [show lookupD (bump st.zoneCount zz) z 0 = lookupD st.zoneCount z 0 from
        lookupD_bump_ne _ (fun e => hzz e.symm)]
      simp [hzz]

theorem foldl_khanLine_count (z : Str) :
    ∀ (ls : List Str) (st : KState),
      lookupD (ls.foldl khanLine st).zoneCount z 0 =
        lookupD st.zoneCount z 0 +
          ls.countP (fun l => decide (khanZone l = some z)) := by
  intro ls
  induction ls with
  | nil => intro st; simp
  | cons l ls ih =>
    intro st
    rw [List.foldl_cons, ih, khanLine_count, List.countP_cons]
    by_cases hz : khanZone l = some z
    · simp [hz]
      omega
    · simp [hz]

end Khan

/-- C10: `ingestStdin` reads and unconditionally discards the first input
line before parsing begins; a record on the first line is never counted,
whether or not that line is a header.  Every zone's count is exactly the
number of accepted records among the remaining lines, independent of the
content of the first line, and a single-line input produces the empty
state. -/
theorem C10_first_line_discarded (first : Str) (rest : List Str) (z : Str) :
    lookupD (Khan.ingestStdin (first :: rest)).zoneCount z 0 =
      rest.countP (fun l => decide (Khan.khanZone l = some z)) ∧
    Khan.ingestStdin [first] = ⟨[], []⟩ := by
  constructor
  · show lookupD (rest.foldl Khan.khanLine ⟨[], []⟩).zoneCount z 0 = _
    rw [Khan.foldl_khanLine_count z rest ⟨[], []⟩]
    simp [lookupD]
  · rfl

/-! ## Rejected lines leave the state untouched (claim C6) -/

theorem parseLine_none_of_bad {l : Str}
    (hbad : (splitAll (stripCR l)).length < 6 ∨
      trimL ((splitAll (stripCR l)).getD 1 []) = [] ∨
      Analyzer.parseHourFromDatetime
        (trimL ((splitAll (stripCR l)).getD 3 [])) = none) :
    Analyzer.parseLine l = none := by
  simp only [Analyzer.parseLine]
  by_cases hs : stripCR l = []
  · rw [if_pos hs]
  · rw [if_neg hs]
    by_cases hhd : Analyzer.isHeaderLine (stripCR l) = true
    · rw [if_pos hhd]
    · rw [if_neg hhd]
      by_cases h6 : (splitAll (stripCR l)).length < 6
      · rw [if_pos h6]
      · rw [if_neg h6]
        rcases hbad with hb | hb | hb
        · exact absurd hb h6
        · rw [if_pos hb]
        · by_cases hz : trimL ((splitAll (stripCR l)).getD 1 []) = []
          · rw [if_pos hz]
          · rw [if_neg hz, hb]

/-! ## Zone normalization before keying (claim C5) -/

namespace Analyzer

theorem foldl_processLine_count (z : Str) :
    ∀ (ls : List Str) (st : AggState),
      lookupD (ls.foldl processLine st).zoneTrips z 0 =
        lookupD st.zoneTrips z 0 +
          ls.countP (fun l => decide ((parseLine l).map Prod.fst = some z)) := by
  intro ls
  induction ls with
  | nil => intro st; simp
  | cons l ls ih =>
    intro st
    rw [List.foldl_cons, ih, List.countP_cons, processLine_eq_parseLine]
    rcases hp : parseLine l with _ | ⟨zz, hh⟩
    · simp [hp]
    · have hred : (match some (zz, hh) with
          | none => st
          | some (z, h) => accept st z h) = accept st zz hh := rfl
      rw [hred]
      show lookupD (bump st.zoneTrips zz) z 0 + _ = _
      by_cases hzz : zz = z
      · rw [hzz, lookupD_bump_self]
        simp [hp, hzz]
        omega
      · rw [lookupD_bump_ne _ (fun e => hzz e.symm)]
        simp [hp, hzz]

theorem mem_keys_bump {κ : Type} [DecidableEq κ] :
    ∀ (m : List (κ × Nat)) (k x : κ),
      x ∈ (bump m k).map Prod.fst ↔ x ∈ m.map Prod.fst ∨ x = k := by
  intro m k x
  induction m with
  | nil => simp [bump]
  | cons p rest ih =>
    obtain ⟨k', v⟩ := p
    by_cases hk : k' = k
    · subst hk
      simp only [bump, eq_self_iff_true, if_true, List.map_cons, List.mem_cons]
      tauto
    · simp only [bump, if_neg hk, List.map_cons, List.mem_cons, ih]
      tauto

theorem nodup_keys_bump {κ : Type} [DecidableEq κ] :
    ∀ (m : List (κ × Nat)) (k : κ),
      (m.map Prod.fst).Nodup → ((bump m k).map Prod.fst).Nodup := by
  intro m k
  induction m with
  | nil => intro _; simp [bump]
  | cons p rest ih =>
    obtain ⟨k', v⟩ := p
    intro h
    rw [List.map_cons, List.nodup_cons] at h
    by_cases hk : k' = k
    · subst hk
      simp only [bump, eq_self_iff_true, if_true, List.map_cons, List.nodup_cons]
      exact h
    · simp only [bump, if_neg hk, List.map_cons, List.nodup_cons]
      refine ⟨?_, ih (h.2)⟩
      rw [mem_keys_bump]
      rintro (hm | he)
      · exact h.1 hm
      · exact hk he

theorem nodup_keys_ingestLines (lines : List Str) :
    ((ingestLines lines).zoneTrips.map Prod.fst).Nodup := by
  have hstep : ∀ (ls : List Str) (st : AggState),
      (st.zoneTrips.map Prod.fst).Nodup →
        ((ls.foldl processLine st).zoneTrips.map Prod.fst).Nodup := by
    intro ls
    induction ls with
    | nil => intro st h; exact h
    | cons l ls ih =>
      intro st h
      refine ih _ ?_
      rw [processLine_eq_parseLine]
      rcases parseLine l with _ | ⟨zz, hh⟩
      · exact h
      · exact nodup_keys_bump _ _ h
  exact hstep lines ⟨[], []⟩ (by simp)

theorem parseLine_zone {l : Str} {z' : Str} {h' : Nat}
    (he : parseLine l = some (z', h')) :
    z' = toUpperL (trimL ((splitAll (stripCR l)).getD 1 [])) := by
  simp only [parseLine] at he
  split at he
  · exact absurd he (by simp)
  · split at he
    · exact absurd he (by simp)
    · split at he
      · exact absurd he (by simp)
      · split at he
        · exact absurd he (by simp)
        · split at he
          · exact absurd he (by simp)
          · exact (congrArg Prod.fst (Option.some_inj.mp he)).symm

end Analyzer

/-- C5 counterexample: the khanapi variant uses the raw zone string as
the aggregation key (khanapi.kazavatov.cpp:79-81 — no trimming, no case
folding), so two records whose zones differ only in case produce two
separate entries of count 1 instead of one entry of count 2. -/
theorem C5_counterexample :
    (Khan.ingestStdin (["header",
      "T1,zoneA,B,2024-01-01 08:15:00,1,2",
      "T2,ZONEA,B,2024-01-01 08:15:00,1,2"].map String.toList)).zoneCount =
      [("zoneA".toList, 1), ("ZONEA".toList, 1)] := by
  rfl

/-- C5 amended: in `analyzer.cpp` the zone is whitespace-trimmed and
upper-cased before being used as the key, so case-variant spellings
aggregate into the single normalized entry, whose count is the number of
accepted records normalizing to it (and the key list stays duplicate
free); in the khanapi variant the raw zone string is the key, so
differently-cased spellings remain separate entries. -/
theorem C5_zone_normalization_amended (lines : List Str) (z : Str) (l : Str)
    (z' : Str) (h' : Nat) :
    lookupD (Analyzer.ingestLines lines).zoneTrips z 0 =
      lines.countP (fun l0 =>
        decide ((Analyzer.parseLine l0).map Prod.fst = some z)) ∧
    ((Analyzer.ingestLines lines).zoneTrips.map Prod.fst).Nodup ∧
    (Analyzer.parseLine l = some (z', h') →
      z' = toUpperL (trimL ((splitAll (stripCR l)).getD 1 []))) := by
  refine ⟨?_, Analyzer.nodup_keys_ingestLines lines, Analyzer.parseLine_zone⟩
  show lookupD (lines.foldl Analyzer.processLine ⟨[], []⟩).zoneTrips z 0 = _
  rw [Analyzer.foldl_processLine_count z lines ⟨[], []⟩]
  simp [lookupD]

theorem C5_zone_normalization_amended_witness :
    lookupD (Analyzer.ingestLines
        (["T1,zoneA,ZoneB,2024-01-01 08:15,3.2,12.50",
          "T2,ZONEA,ZoneC,2024-01-01 08:47,1.1,6.00"].map String.toList)).zoneTrips
      ("ZONEA".toList) 0 = 2 ∧
    ("ZONEA".toList : Str) =
      toUpperL (trimL ((splitAll
        (stripCR (" T1 , zoneA ,ZoneB,2024-01-01 08:15,3.2,12.50".toList))).getD 1 [])) := by
  constructor
  · rw [(C5_zone_normalization_amended
      (["T1,zoneA,ZoneB,2024-01-01 08:15,3.2,12.50",
        "T2,ZONEA,ZoneC,2024-01-01 08:47,1.1,6.00"].map String.toList)
      ("ZONEA".toList) [] [] 0).1]
    decide
  · exact (C5_zone_normalization_amended [] ("ZONEA".toList)
      (" T1 , zoneA ,ZoneB,2024-01-01 08:15,3.2,12.50".toList)
      ("ZONEA".toList) 8).2.2 (by decide)

/-! ## At least six fields, extras ignored (claim C7) -/

theorem findFrom_of_pieces (line : Str) (pos : Nat)
    (h2 : 2 ≤ (splitAll (line.drop pos)).length) :
    ∃ c, findFrom line ',' pos = some c := by
  cases hf : findFrom line ',' pos with
  | some c => exact ⟨c, rfl⟩
  | none =>
    have hsp := splitAll_no_comma (findIdxC_none (Option.map_eq_none'.mp hf))
    rw [hsp] at h2
    simp at h2

theorem findFrom_some_split {line : Str} {pos c : Nat}
    (hf : findFrom line ',' pos = some c) :
    pos ≤ c ∧ c + 1 ≤ line.length ∧
      splitAll (line.drop pos) =
        ((line.drop pos).take (c - pos)) :: splitAll (line.drop (c + 1)) := by
  rcases Option.map_eq_some'.mp hf with ⟨i, hidx, hic⟩
  rcases findIdxC_some hidx with ⟨F, R, hs, hF, hFl⟩
  have hslen : (line.drop pos).length = F.length + 1 + R.length := by
    rw [hs]
    simp only [List.length_append, List.length_cons]
    omega
  have hlen : (line.drop pos).length = line.length - pos := List.length_drop pos line
  have hc : c = pos + i := hic.symm
  have hdropR : line.drop (pos + i + 1) = R := by
    have h1 : line.drop (pos + i + 1) = (line.drop pos).drop (i + 1) := by
      rw [List.drop_drop, Nat.add_assoc]
    rw [h1, hs, show F ++ ',' :: R = (F ++ [',']) ++ R by simp,
      show i + 1 = (F ++ [',']).length by simp [hFl]]
    exact List.drop_left _ _
  refine ⟨by omega, by omega, ?_⟩
  rw [hc, Nat.add_sub_cancel_left, hs, hdropR, ← hFl, List.take_left F (',' :: R)]
  exact splitAll_append R hF

/-- The strict variant treats any line with more than six comma-separated
fields as dirty: the sixth comma is found and the row is skipped
(part_000:85, part_001:95). -/
theorem V1_dataLine_rejects_extra_fields (st : Analyzer.AggState) (line : Str)
    (h7 : 6 < (splitAll line).length) :
    V1.dataLine st line = st := by
  have h20 : 2 ≤ (splitAll (line.drop 0)).length := by
    rw [List.drop_zero]
    omega
  obtain ⟨c1, hf1⟩ := findFrom_of_pieces line 0 h20
  obtain ⟨-, -, hsp1⟩ := findFrom_some_split hf1
  rw [List.drop_zero] at hsp1
  have hl1 : (splitAll (line.drop (c1 + 1))).length + 1 = (splitAll line).length := by
    rw [hsp1]
    simp
  obtain ⟨c2, hf2⟩ := findFrom_of_pieces line (c1 + 1) (by omega)
  obtain ⟨-, -, hsp2⟩ := findFrom_some_split hf2
  have hl2 : (splitAll (line.drop (c2 + 1))).length + 1 =
      (splitAll (line.drop (c1 + 1))).length := by
    rw [hsp2]
    simp
  obtain ⟨c3, hf3⟩ := findFrom_of_pieces line (c2 + 1) (by omega)
  obtain ⟨-, -, hsp3⟩ := findFrom_some_split hf3
  have hl3 : (splitAll (line.drop (c3 + 1))).length + 1 =
      (splitAll (line.drop (c2 + 1))).length := by
    rw [hsp3]
    simp
  obtain ⟨c4, hf4⟩ := findFrom_of_pieces line (c3 + 1) (by omega)
  obtain ⟨-, -, hsp4⟩ := findFrom_some_split hf4
  have hl4 : (splitAll (line.drop (c4 + 1))).length + 1 =
      (splitAll (line.drop (c3 + 1))).length := by
    rw [hsp4]
    simp
  obtain ⟨c5, hf5⟩ := findFrom_of_pieces line (c4 + 1) (by omega)
  obtain ⟨-, -, hsp5⟩ := findFrom_some_split hf5
  have hl5 : (splitAll (line.drop (c5 + 1))).length + 1 =
      (splitAll (line.drop (c4 + 1))).length := by
    rw [hsp5]
    simp
  obtain ⟨c6, hf6⟩ := findFrom_of_pieces line (c5 + 1) (by omega)
  simp only [V1.dataLine, hf1, hf2, hf3, hf4, hf5, hf6]

theorem V1_parseHour_lt24 {line : Str} {s e h : Nat}
    (hp : V1.parseHour line s e = some h) : h < 24 := by
  simp only [V1.parseHour] at hp
  split at hp
  · simp at hp
  · split at hp
    · simp at hp
    · split at hp
      · split at hp
        · rename_i hle
          have hh := Option.some_inj.mp hp
          omega
        · simp at hp
      · simp at hp

/-- The strict variant rejects, with no update, any line whose raw
comma-separated field count differs from six or whose raw (untrimmed)
zone field between the first and second commas is empty
(part_000:73-90, part_001:83-100). -/
theorem V1_dataLine_rejects_invalid (st : Analyzer.AggState) (line : Str)
    (hbad : ¬ (splitAll line).length = 6 ∨ (splitAll line).getD 1 [] = []) :
    V1.dataLine st line = st := by
  cases hf1 : findFrom line ',' 0 with
  | none => simp only [V1.dataLine, hf1]
  | some c1 =>
  obtain ⟨-, -, hsp1⟩ := findFrom_some_split hf1
  rw [List.drop_zero] at hsp1
  cases hf2 : findFrom line ',' (c1 + 1) with
  | none => simp only [V1.dataLine, hf1, hf2]
  | some c2 =>
  obtain ⟨-, -, hsp2⟩ := findFrom_some_split hf2
  cases hf3 : findFrom line ',' (c2 + 1) with
  | none => simp only [V1.dataLine, hf1, hf2, hf3]
  | some c3 =>
  obtain ⟨-, -, hsp3⟩ := findFrom_some_split hf3
  cases hf4 : findFrom line ',' (c3 + 1) with
  | none => simp only [V1.dataLine, hf1, hf2, hf3, hf4]
  | some c4 =>
  obtain ⟨-, -, hsp4⟩ := findFrom_some_split hf4
  cases hf5 : findFrom line ',' (c4 + 1) with
  | none => simp only [V1.dataLine, hf1, hf2, hf3, hf4, hf5]
  | some c5 =>
  obtain ⟨-, -, hsp5⟩ := findFrom_some_split hf5
  cases hf6 : findFrom line ',' (c5 + 1) with
  | some c6 => simp only [V1.dataLine, hf1, hf2, hf3, hf4, hf5, hf6]
  | none =>
  have hs6 : splitAll (line.drop (c5 + 1)) = [line.drop (c5 + 1)] :=
    splitAll_no_comma (findIdxC_none (Option.map_eq_none'.mp hf6))
  have hlen : (splitAll line).length = 6 := by
    rw [hsp1, hsp2, hsp3, hsp4, hsp5, hs6]
    simp
  rcases hbad with hb | hb
  · exact absurd hlen hb
  · have hgd : (splitAll line).getD 1 [] =
        (line.drop (c1 + 1)).take (c2 - (c1 + 1)) := by
      rw [hsp1, hsp2]
      rfl
    have hz : (line.drop (c1 + 1)).take (c2 - (c1 + 1)) = [] := by
      rw [← hgd]
      exact hb
    by_cases hc12 : c2 ≤ c1 + 1
    · simp only [V1.dataLine, hf1, hf2, hf3, hf4, hf5, hf6, if_pos hc12]
    · simp only [V1.dataLine, hf1, hf2, hf3, hf4, hf5, hf6]
      rw [if_neg hc12, if_pos hz]

/-- Every single line is either rejected outright by the strict variant
(state unchanged) or produces exactly one complete `accept` of a
non-empty zone at an hour below 24: there is no partial update, and the
loop body is a total function, so no error interrupts ingestion
(part_000:72-111, part_001:82-122). -/
theorem V1_dataLine_cases (st : Analyzer.AggState) (line : Str) :
    V1.dataLine st line = st ∨
      ∃ z h, ¬ z = [] ∧ h < 24 ∧
        V1.dataLine st line = Analyzer.accept st z h := by
  simp only [V1.dataLine]
  split
  · exact Or.inl rfl
  · split
    · exact Or.inl rfl
    · split
      · exact Or.inl rfl
      · split
        · exact Or.inl rfl
        · split
          · exact Or.inl rfl
          · split
            · exact Or.inl rfl
            · split
              · exact Or.inl rfl
              · split
                · exact Or.inl rfl
                · split
                  · exact Or.inl rfl
                  · split
                    · exact Or.inl rfl
                    · rename_i hzne h34 x hour hp
                      exact Or.inr ⟨_, hour, hzne, V1_parseHour_lt24 hp, rfl⟩

/-- C6 counterexample: the line `T1, ,B,2024-01-01 08:15,1,2` has a
whitespace-only zone field, which is empty after trimming, so by the
claim it should be rejected with no update; the strict part_000/part_001
variant does not trim and counts it under the key formed by the single
space character. -/
theorem C6_counterexample :
    trimL (" ".toList) = [] ∧
    V1.ingestLines ["T1, ,B,2024-01-01 08:15,1,2".toList] =
      ⟨[([' '], 1)], [([' '], Analyzer.zeros24.set 8 1)]⟩ :=
  ⟨by decide, by decide⟩

/-- C6 amended: in `analyzer.cpp`, a line that fails any validation step —
fewer than six comma-separated fields, an empty zone after trimming, or
an hour that does not parse (out-of-range values make
`parseHourFromDatetime` return `none`) — applies no update at all to the
aggregate state; ingestion is a total function of the previous state, so
no error escapes and the fold continues with the next line.  The strict
part_000/part_001 variant validates the raw, untrimmed fields: a line
whose field count differs from six, or whose raw zone field between the
first and second commas is empty, likewise applies no update; and every
line either leaves its state unchanged or performs exactly one complete
`accept` of a non-empty zone at an in-range hour, so no partial update
or error occurs there either.  But because that variant never trims, a
whitespace-only zone field is non-empty for it and such a line is
counted, not rejected (see the counterexample). -/
theorem C6_rejected_line_no_update_amended :
    (∀ (st : Analyzer.AggState) (l : Str),
      ((splitAll (stripCR l)).length < 6 ∨
        trimL ((splitAll (stripCR l)).getD 1 []) = [] ∨
        Analyzer.parseHourFromDatetime
          (trimL ((splitAll (stripCR l)).getD 3 [])) = none) →
      Analyzer.processLine st l = st) ∧
    (∀ (st : Analyzer.AggState) (line : Str),
      (¬ (splitAll line).length = 6 ∨ (splitAll line).getD 1 [] = []) →
      V1.dataLine st line = st) ∧
    (∀ (st : Analyzer.AggState) (line : Str),
      V1.dataLine st line = st ∨
        ∃ z h, ¬ z = [] ∧ h < 24 ∧
          V1.dataLine st line = Analyzer.accept st z h) := by
  refine ⟨?_, V1_dataLine_rejects_invalid, V1_dataLine_cases⟩
  intro st l hbad
  rw [Analyzer.processLine_eq_parseLine, parseLine_none_of_bad hbad]

theorem C6_rejected_line_no_update_amended_witness :
    Analyzer.processLine ⟨[("ZONEA".toList, 3)], []⟩ ("garbage,,,,,".toList) =
      ⟨[("ZONEA".toList, 3)], []⟩ ∧
    Analyzer.processLine ⟨[], []⟩ ("a,b".toList) = ⟨[], []⟩ ∧
    V1.dataLine ⟨[], []⟩ ("a,b,c".toList) = ⟨[], []⟩ ∧
    V1.dataLine ⟨[], []⟩ ("T1,,B,2024-01-01 08:15,1,2".toList) = ⟨[], []⟩ :=
  ⟨C6_rejected_line_no_update_amended.1 _ _ (Or.inr (Or.inl (by decide))),
   C6_rejected_line_no_update_amended.1 _ _ (Or.inl (by decide)),
   C6_rejected_line_no_update_amended.2.1 _ _ (Or.inl (by decide)),
   C6_rejected_line_no_update_amended.2.1 _ _ (Or.inr (by decide))⟩

/-- C7 amended: in `analyzer.cpp`, every non-header line with at least six
comma-separated fields whose trimmed zone (field index 1) is non-empty
and whose timestamp (field index 3) yields an hour is counted, with all
fields beyond the sixth ignored; the part_000/part_001 strict variant
instead rejects every line with more than six fields. -/
theorem C7_six_or_more_fields_amended :
    (∀ (st : Analyzer.AggState) (l : Str) (hr : Nat),
      ¬ (splitAll (stripCR l)).length < 6 →
      Analyzer.isHeaderLine (stripCR l) = false →
      ¬ trimL ((splitAll (stripCR l)).getD 1 []) = [] →
      Analyzer.parseHourFromDatetime
        (trimL ((splitAll (stripCR l)).getD 3 [])) = some hr →
      Analyzer.processLine st l =
        Analyzer.accept st
          (toUpperL (trimL ((splitAll (stripCR l)).getD 1 []))) hr) ∧
    (∀ (st : Analyzer.AggState) (l : Str), 6 < (splitAll l).length →
      V1.dataLine st l = st) := by
  constructor
  · intro st l hr h6 hhd hz hph
    rw [Analyzer.processLine_eq_parseLine]
    have hs : ¬ stripCR l = [] := by
      intro he
      rw [he] at h6
      simp [splitAll] at h6
    have hp : Analyzer.parseLine l =
        some (toUpperL (trimL ((splitAll (stripCR l)).getD 1 [])), hr) := by
      simp only [Analyzer.parseLine]
      rw [if_neg hs, if_neg (by rw [hhd]; simp), if_neg h6, if_neg hz, hph]
    rw [hp]
  · intro st l h7
    exact V1_dataLine_rejects_extra_fields st l h7

/-- C7 counterexample: a seven-field line whose zone and timestamp fields
are valid is counted by `analyzer.cpp` but rejected as dirty by the
strict part_000/part_001 variant (its ingest and its `splitCSV6` treat
extra commas as malformed), so the claim "a line with more than 6 fields
whose fields at indices 1 and 3 are valid is counted rather than
rejected" is false of those cited variants. -/
theorem C7_counterexample :
    (splitAll ("T1,ZoneA,ZoneB,2024-01-01 08:15,3.2,12.50,extra".toList)).length
      = 7 ∧
    V1.ingestLines ["T1,ZoneA,ZoneB,2024-01-01 08:15,3.2,12.50,extra".toList] =
      ⟨[], []⟩ ∧
    Analyzer.ingestLines
        ["T1,ZoneA,ZoneB,2024-01-01 08:15,3.2,12.50,extra".toList] =
      ⟨[("ZONEA".toList, 1)], [("ZONEA".toList, Analyzer.zeros24.set 8 1)]⟩ :=
  ⟨by decide, by decide, by decide⟩

theorem C7_six_or_more_fields_amended_witness :
    Analyzer.processLine ⟨[], []⟩
        ("T1,ZoneA,ZoneB,2024-01-01 08:15,3.2,12.50,extra".toList) =
      Analyzer.accept ⟨[], []⟩
        (toUpperL (trimL ((splitAll (stripCR
          ("T1,ZoneA,ZoneB,2024-01-01 08:15,3.2,12.50,extra".toList))).getD 1 [])))
        8 ∧
    V1.dataLine ⟨[], []⟩
        ("T1,ZoneA,ZoneB,2024-01-01 08:15,3.2,12.50,extra".toList) = ⟨[], []⟩ :=
  ⟨C7_six_or_more_fields_amended.1 _ _ 8 (by decide) (by decide) (by decide)
      (by decide),
   C7_six_or_more_fields_amended.2 _ _ (by decide)⟩

/-! ## Header detection (claim C8) -/

theorem takeWhile_findIdxC (ch : Char) : ∀ (t : Str),
    t.takeWhile (fun c => decide (¬ c = ch)) =
      match findIdxC ch t with
      | none => t
      | some c => t.take c := by
  intro t
  induction t with
  | nil => rfl
  | cons c cs ih =>
    by_cases hc : c = ch
    · subst hc
      rw [List.takeWhile_cons_of_neg (by simp)]
      simp [findIdxC]
    · rw [List.takeWhile_cons_of_pos (by simp [hc])]
      simp only [findIdxC, if_neg hc]
      rw [ih]
      cases hf : findIdxC ch cs with
      | none => rfl
      | some j => rfl

/-- C8 amended: in `analyzer.cpp`, every line (anywhere in the input)
whose first comma-delimited field — taken from the whitespace-trimmed
line and itself trimmed and upper-cased — equals `TRIPID` is discarded
and never counted, even if it would otherwise parse as a valid record;
detection is case-insensitive and tolerates surrounding whitespace.  The
part_000/part_001 variant instead only matches the case-sensitive
literal prefix `TripID`, and only on the first non-empty line. -/
theorem C8_header_discarded_amended (st : Analyzer.AggState) (l : Str)
    (hfield : toUpperL (trimL ((trimL (stripCR l)).takeWhile
        (fun c => decide (¬ c = ',')))) = "TRIPID".toList) :
    Analyzer.processLine st l = st := by
  have hhd : Analyzer.isHeaderLine (stripCR l) = true := by
    simp only [Analyzer.isHeaderLine]
    rw [takeWhile_findIdxC] at hfield
    by_cases ht : trimL (stripCR l) = []
    · rw [ht] at hfield
      simp [findIdxC] at hfield
      exact absurd hfield (by decide)
    · rw [if_neg ht]
      cases hf : findIdxC ',' (trimL (stripCR l)) with
      | none =>
        rw [hf] at hfield
        exact decide_eq_true hfield
      | some c =>
        rw [hf] at hfield
        exact decide_eq_true hfield
  simp only [Analyzer.processLine]
  by_cases hs : stripCR l = []
  · rw [if_pos hs]
  · rw [if_neg hs, if_pos hhd]

/-- C8 counterexample: the part_000/part_001 variant's `isHeaderLine` is
the case-sensitive prefix test `line.rfind("TripID", 0) == 0`; a
lower-case header line (whose first field still normalizes to `TRIPID`)
is not detected and is counted as a data record, where the claim says it
is never counted. -/
theorem C8_counterexample :
    toUpperL (trimL ((trimL ("tripid,A,B,2024-01-01 08:15,1,2".toList)).takeWhile
        (fun c => decide (¬ c = ',')))) = "TRIPID".toList ∧
    V1.isHeaderLine ("tripid,A,B,2024-01-01 08:15,1,2".toList) = false ∧
    V1.ingestLines ["tripid,A,B,2024-01-01 08:15,1,2".toList] =
      ⟨[("A".toList, 1)], [("A".toList, Analyzer.zeros24.set 8 1)]⟩ :=
  ⟨by decide, by decide, by decide⟩

theorem C8_header_discarded_amended_witness :
    Analyzer.processLine ⟨[("ZONEA".toList, 1)], []⟩
        ("  tripID , ZoneA , B, 2024-01-01 08:15, 1, 2".toList) =
      ⟨[("ZONEA".toList, 1)], []⟩ :=
  C8_header_discarded_amended _ _ (by decide)

/-! ## Hour extraction equivalences (claim C1) -/

theorem digitsVal_pair (a b : Char) : digitsVal [a, b] = dval a * 10 + dval b := by
  simp only [digitsVal, List.foldl_cons, List.foldl_nil]
  omega

theorem takeWhile_all_true {α : Type} (p : α → Bool) (l : List α) :
    (l.takeWhile p).all p = true :=
  List.all_eq_true.mpr fun _ hx => List.mem_takeWhile_imp hx

theorem takeWhile_length_le {α : Type} (p : α → Bool) (l : List α) :
    (l.takeWhile p).length ≤ l.length :=
  (List.takeWhile_sublist p).length_le

/-- The reversed digit run taken from the reversed list is a suffix:
dropping everything before it recovers it. -/
theorem reverse_takeWhile_suffix {α : Type} (p : α → Bool) (u : List α) :
    (u.reverse.takeWhile p).reverse =
      u.drop (u.length - (u.reverse.takeWhile p).length) := by
  have hsplit : u.reverse.takeWhile p ++ u.reverse.dropWhile p = u.reverse :=
    List.takeWhile_append_dropWhile p u.reverse
  have hu : u = (u.reverse.dropWhile p).reverse ++ (u.reverse.takeWhile p).reverse := by
    have h2 := congrArg List.reverse hsplit
    rw [List.reverse_append, List.reverse_reverse] at h2
    exact h2.symm
  have h1 : (u.reverse.takeWhile p).length + (u.reverse.dropWhile p).length
      = u.length := by
    have h3 := congrArg List.length hsplit
    simp only [List.length_append, List.length_reverse] at h3
    exact h3
  have hlen : u.length - (u.reverse.takeWhile p).length =
      ((u.reverse.dropWhile p).reverse).length := by
    simp only [List.length_reverse]
    omega
  rw [hlen]
  calc (u.reverse.takeWhile p).reverse
      = ((u.reverse.dropWhile p).reverse ++ (u.reverse.takeWhile p).reverse).drop
          (u.reverse.dropWhile p).reverse.length :=
        (List.drop_left _ _).symm
    _ = u.drop (u.reverse.dropWhile p).reverse.length := by rw [← hu]

theorem digitRun_succ (t : Str) (e : Nat) (he : e < t.length) :
    (t.take (e + 1)).reverse.takeWhile isDigitC =
      if isDigitC (t.getD e ' ') then
        t.getD e ' ' :: (t.take e).reverse.takeWhile isDigitC
      else [] := by
  have htake : t.take (e + 1) = t.take e ++ [t.getD e ' '] := by
    rw [List.take_succ, List.getElem?_eq_getElem he, List.getD_eq_getElem _ _ he]
    rfl
  rw [htake, List.reverse_append]
  simp only [List.reverse_cons, List.reverse_nil, List.nil_append,
    List.singleton_append]
  by_cases hd : isDigitC (t.getD e ' ') = true
  · rw [List.takeWhile_cons_of_pos hd, if_pos hd]
  · rw [List.takeWhile_cons_of_neg (by simpa using hd), if_neg hd]

theorem scanStart_eq (t : Str) :
    ∀ e, e ≤ t.length →
      V2.scanStart t e = e - ((t.take e).reverse.takeWhile isDigitC).length := by
  intro e
  induction e with
  | zero => intro _; simp [V2.scanStart]
  | succ s ih =>
    intro hse
    have hs : s < t.length := by omega
    have hdl : ((t.take s).reverse.takeWhile isDigitC).length ≤ s := by
      have h1 := takeWhile_length_le isDigitC ((t.take s).reverse)
      simp only [List.length_reverse, List.length_take] at h1
      omega
    simp only [V2.scanStart]
    rw [digitRun_succ t s hs]
    by_cases hd : isDigitC (t.getD s ' ') = true
    · rw [if_pos hd, if_pos hd, ih (by omega)]
      simp only [List.length_cons]
      omega
    · rw [if_neg hd, if_neg hd]
      simp

/-- The `analyzer.cpp` hour extraction matches its claim-side description:
exactly the two characters before the first colon, no AM/PM handling. -/
theorem analyzer_hour_eq_claim (dt : Str) :
    Analyzer.parseHourFromDatetime dt = hourTwoDigitClaim dt := by
  simp only [Analyzer.parseHourFromDatetime, hourTwoDigitClaim]
  by_cases h4 : (trimL dt).length < 4
  · rw [if_pos h4, if_pos h4]
  · rw [if_neg h4, if_neg h4]
    split
    · rfl
    · rename_i colon hc
      obtain ⟨F, R, hs, hF, hFl⟩ := findIdxC_some hc
      have hcl : colon < (trimL dt).length := by
        rw [hs]
        simp only [List.length_append, List.length_cons]
        omega
      have hpre : ((trimL dt).take colon).length = colon := by
        rw [List.length_take]
        omega
      by_cases h2 : colon < 2
      · have hp2 : ((trimL dt).take colon).length < 2 := by rw [hpre]; exact h2
        rw [if_pos h2, if_pos hp2]
      · have hp2 : ¬ ((trimL dt).take colon).length < 2 := by rw [hpre]; omega
        rw [if_neg h2, if_neg hp2]
        have hb1 : colon - 2 < (trimL dt).length := by omega
        have hb2 : colon - 1 < (trimL dt).length := by omega
        have e2 : ((trimL dt).take colon).drop (((trimL dt).take colon).length - 2) =
            [(trimL dt).getD (colon - 2) ' ', (trimL dt).getD (colon - 1) ' '] := by
          rw [List.getD_eq_getElem _ _ hb1, List.getD_eq_getElem _ _ hb2, hpre,
            List.drop_take, show colon - (colon - 2) = 2 by omega,
            List.drop_eq_getElem_cons hb1, show colon - 2 + 1 = colon - 1 by omega,
            List.drop_eq_getElem_cons hb2]
          rfl
        rw [e2, digitsVal_pair]
        simp only [List.all_cons, List.all_nil, Bool.and_true]

/-- The two phrasings of the 12-hour marker rule agree: testing
`AM`-or-`PM` first and then giving `PM` precedence (the code) is the same
as testing `PM` first and then `AM` (the claim). -/
theorem markerBlock_eq (hasAm hasPm : Bool) (h : Nat) :
    (if hasAm || hasPm then
        if h < 1 || 12 < h then none
        else if hasPm then some (if h ≠ 12 then h + 12 else h)
        else some (if h = 12 then 0 else h)
      else if h ≤ 23 then some h else none) =
    (if hasPm then
        if 1 ≤ h ∧ h ≤ 12 then some (if h = 12 then 12 else h + 12) else none
      else if hasAm then
        if 1 ≤ h ∧ h ≤ 12 then some (if h = 12 then 0 else h) else none
      else if h ≤ 23 then some h else none) := by
  have hpm12 : (if h < 1 || 12 < h then none
      else some (if h ≠ 12 then h + 12 else h)) =
      (if 1 ≤ h ∧ h ≤ 12 then some (if h = 12 then 12 else h + 12) else none) := by
    by_cases hr : 1 ≤ h ∧ h ≤ 12
    · have hb : ¬ ((h < 1 || 12 < h) = true) := by
        simp only [Bool.or_eq_true, decide_eq_true_eq]
        omega
      rw [if_neg hb, if_pos hr]
      by_cases h12 : h = 12
      · simp [h12]
      · simp [h12]
    · have hb : (h < 1 || 12 < h) = true := by
        simp only [Bool.or_eq_true, decide_eq_true_eq]
        omega
      rw [if_pos hb, if_neg hr]
  have ham12 : (if h < 1 || 12 < h then none
      else some (if h = 12 then 0 else h)) =
      (if 1 ≤ h ∧ h ≤ 12 then some (if h = 12 then 0 else h) else none) := by
    by_cases hr : 1 ≤ h ∧ h ≤ 12
    · have hb : ¬ ((h < 1 || 12 < h) = true) := by
        simp only [Bool.or_eq_true, decide_eq_true_eq]
        omega
      rw [if_neg hb, if_pos hr]
    · have hb : (h < 1 || 12 < h) = true := by
        simp only [Bool.or_eq_true, decide_eq_true_eq]
        omega
      rw [if_pos hb, if_neg hr]
  cases hasAm <;> cases hasPm <;>
    simp only [Bool.or_self, Bool.or_true, Bool.true_or, Bool.false_or,
      if_true, if_false, Bool.false_eq_true, Bool.true_eq_false]
  · exact hpm12
  · exact ham12
  · exact hpm12

/-- The permissive variant's hour extraction is exactly the claim's
algorithm (with the marker searched anywhere in the trimmed string). -/
theorem V2_hour_eq_claim (dt : Str) :
    V2.parseHourFromDatetime dt = hourExtractClaim dt := by
  simp only [V2.parseHourFromDatetime, hourExtractClaim]
  by_cases ht : trimL dt = []
  · rw [if_pos ht, ht]
    rfl
  · rw [if_neg ht]
    split
    · rfl
    · rename_i colon hc
      obtain ⟨F, R, hs, hF, hFl⟩ := findIdxC_some hc
      have hcl : colon < (trimL dt).length := by
        rw [hs]
        simp only [List.length_append, List.length_cons]
        omega
      by_cases h0 : colon = 0
      · subst h0
        rw [if_pos rfl]
        simp
      · rw [if_neg h0]
        have hel : colon - 1 ≤ (trimL dt).length := by omega
        have hscan := scanStart_eq (trimL dt) (colon - 1) hel
        rw [hscan]
        have hdl : (((trimL dt).take (colon - 1)).reverse.takeWhile isDigitC).length
            ≤ colon - 1 := by
          have h1 := takeWhile_length_le isDigitC (((trimL dt).take (colon - 1)).reverse)
          simp only [List.length_reverse, List.length_take] at h1
          omega
        set rl := (((trimL dt).take (colon - 1)).reverse.takeWhile isDigitC).length
          with hrldef
        have hco : (trimL dt).take colon = (trimL dt).take ((colon - 1) + 1) := by
          congr 1
          omega
        by_cases hd : isDigitC ((trimL dt).getD (colon - 1) ' ') = true
        · -- the character before the colon is a digit: the code's slice is the run
          have hrun : ((trimL dt).take colon).reverse.takeWhile isDigitC =
              (trimL dt).getD (colon - 1) ' ' ::
                ((trimL dt).take (colon - 1)).reverse.takeWhile isDigitC := by
            rw [hco, digitRun_succ (trimL dt) (colon - 1) (by omega), if_pos hd]
          have hXeq : (((trimL dt).take colon).reverse.takeWhile isDigitC).reverse =
              ((trimL dt).drop (colon - 1 - rl)).take
                (colon - 1 - (colon - 1 - rl) + 1) := by
            rw [reverse_takeWhile_suffix isDigitC ((trimL dt).take colon), hrun]
            simp only [List.length_cons, ← hrldef]
            rw [List.drop_take]
            have hLt : ((trimL dt).take colon).length = colon := by
              rw [List.length_take]
              omega
            rw [hLt, show colon - (rl + 1) = colon - 1 - rl by omega,
              show colon - (colon - 1 - rl) = colon - 1 - (colon - 1 - rl) + 1 by omega]
          rw [← hXeq]
          have hXlen : (((trimL dt).take colon).reverse.takeWhile isDigitC).reverse.length
              = rl + 1 := by
            rw [List.length_reverse, hrun]
            simp [hrldef]
          have hXne : ¬ (((trimL dt).take colon).reverse.takeWhile isDigitC).reverse = [] := by
            intro he
            rw [he] at hXlen
            simp at hXlen
          have hXall : (((trimL dt).take colon).reverse.takeWhile isDigitC).reverse.all
              isDigitC = true := by
            rw [List.all_reverse]
            exact takeWhile_all_true _ _
          by_cases h2 : rl + 1 ≤ 2
          · have hg : ¬ ((decide ((((trimL dt).take colon).reverse.takeWhile
                isDigitC).reverse = []) ||
                decide (2 < (((trimL dt).take colon).reverse.takeWhile
                  isDigitC).reverse.length)) = true) := by
              simp only [Bool.or_eq_true, decide_eq_true_eq]
              rw [hXlen]
              push_neg
              exact ⟨hXne, by omega⟩
            rw [if_neg hg]
            have hgall : ¬ ((!(((trimL dt).take colon).reverse.takeWhile
                isDigitC).reverse.all isDigitC) = true) := by
              rw [hXall]
              simp
            rw [if_neg hgall]
            have hcp : 1 ≤ (((trimL dt).take colon).reverse.takeWhile
                isDigitC).reverse.length ∧
                (((trimL dt).take colon).reverse.takeWhile
                  isDigitC).reverse.length ≤ 2 := by
              rw [hXlen]
              omega
            rw [if_pos hcp]
            exact markerBlock_eq _ _ _
          · have hg : (decide ((((trimL dt).take colon).reverse.takeWhile
                isDigitC).reverse = []) ||
                decide (2 < (((trimL dt).take colon).reverse.takeWhile
                  isDigitC).reverse.length)) = true := by
              simp only [Bool.or_eq_true, decide_eq_true_eq]
              right
              rw [hXlen]
              omega
            rw [if_pos hg]
            have hcp : ¬ (1 ≤ (((trimL dt).take colon).reverse.takeWhile
                isDigitC).reverse.length ∧
                (((trimL dt).take colon).reverse.takeWhile
                  isDigitC).reverse.length ≤ 2) := by
              rw [hXlen]
              omega
            rw [if_neg hcp]
        · -- the character before the colon is not a digit: both sides reject
          have hrun0 : ((trimL dt).take colon).reverse.takeWhile isDigitC = [] := by
            rw [hco, digitRun_succ (trimL dt) (colon - 1) (by omega), if_neg hd]
          have hcp : ¬ (1 ≤ (((trimL dt).take colon).reverse.takeWhile
              isDigitC).reverse.length ∧
              (((trimL dt).take colon).reverse.takeWhile
                isDigitC).reverse.length ≤ 2) := by
            rw [hrun0]
            simp
          rw [if_neg hcp]
          -- the code side also rejects: its slice ends in the non-digit
          by_cases hg : (decide (((trimL dt).drop (colon - 1 - rl)).take
              (colon - 1 - (colon - 1 - rl) + 1) = []) ||
              decide (2 < (((trimL dt).drop (colon - 1 - rl)).take
                (colon - 1 - (colon - 1 - rl) + 1)).length)) = true
          · rw [if_pos hg]
          · rw [if_neg hg]
            have hsplitX : ((trimL dt).drop (colon - 1 - rl)).take
                (colon - 1 - (colon - 1 - rl) + 1) =
                ((trimL dt).drop (colon - 1 - rl)).take (colon - 1 - (colon - 1 - rl))
                  ++ [(trimL dt).getD (colon - 1) ' '] := by
              rw [List.take_succ]
              congr 1
              rw [List.getElem?_drop, List.getD_eq_getElem _ _ (show colon - 1 <
                (trimL dt).length by omega)]
              rw [show colon - 1 - rl + (colon - 1 - (colon - 1 - rl)) = colon - 1
                by omega]
              rw [List.getElem?_eq_getElem (show colon - 1 < (trimL dt).length
                by omega)]
              rfl
            have hXallf : (((trimL dt).drop (colon - 1 - rl)).take
                (colon - 1 - (colon - 1 - rl) + 1)).all isDigitC = false := by
              cases hb : (((trimL dt).drop (colon - 1 - rl)).take
                  (colon - 1 - (colon - 1 - rl) + 1)).all isDigitC
              · rfl
              · exfalso
                rw [hsplitX, List.all_append] at hb
                simp only [List.all_cons, List.all_nil, Bool.and_true,
                  Bool.and_eq_true] at hb
                exact hd hb.2
            have hall2 : (!(((trimL dt).drop (colon - 1 - rl)).take
                (colon - 1 - (colon - 1 - rl) + 1)).all isDigitC) = true := by
              rw [hXallf]
              rfl
            rw [if_pos hall2]

/-- C1 counterexample: `analyzer.cpp`'s `parseHourFromDatetime` applies
no AM/PM adjustment and requires exactly two digits before the colon:
`"2024-01-01 12:05 AM"` yields hour 12 where the claim requires 0, and
the one-digit hour `"2024-01-01 1:05"` is rejected where the claim
accepts hour 1 (the claim's own algorithm, `hourExtractClaim`, shown for
contrast). -/
theorem C1_counterexample :
    Analyzer.parseHourFromDatetime ("2024-01-01 12:05 AM".toList) = some 12 ∧
    hourExtractClaim ("2024-01-01 12:05 AM".toList) = some 0 ∧
    Analyzer.parseHourFromDatetime ("2024-01-01 1:05".toList) = none ∧
    hourExtractClaim ("2024-01-01 1:05".toList) = some 1 :=
  ⟨by decide, by decide, by decide, by decide⟩

/-- C1 amended: the part_000 variant's `parseHourFromDatetime` implements
the claimed algorithm exactly — first colon, a 1-2 digit run immediately
before it, and the case-insensitive AM/PM mapping (12 AM ↦ 0, 1-11 PM
↦ +12, 12 PM ↦ 12, otherwise a 24-hour value in [0,23]) — except that
the marker is recognized anywhere in the trimmed field, not only after
the hour.  In `analyzer.cpp`, hour extraction instead requires the
trimmed field to have at least 4 characters and exactly two digit
characters immediately before the first colon, applies no AM/PM
adjustment, and accepts iff that two-digit value is at most 23. -/
theorem C1_hour_extraction_amended :
    (∀ dt : Str, V2.parseHourFromDatetime dt = hourExtractClaim dt) ∧
    (∀ dt : Str, Analyzer.parseHourFromDatetime dt = hourTwoDigitClaim dt) :=
  ⟨V2_hour_eq_claim, analyzer_hour_eq_claim⟩
